import Mathlib

/-! QtCampusNavigator: the route search of the campus navigator.

A shallow embedding of `src/CampusNavigator.cpp`: the three adjacency matrices of
`createEdges`, and the input validation, dense Dijkstra search and path
reconstruction of `calculatePath`, followed by theorems about them.

Machine `int` values are modelled as `Int`; the results of the two `int`
operations that can leave the 32-bit range (`toInt(..) - 1` and
`dist[u] + adjMatrix[u][v]`) are reduced to the two's-complement range.
Vectors are lists, read with a default outside their bounds; the selection
loop is shown to end with an index in `0..14` in every iteration the outer loop
runs (`selection_in_range`), so the default is never read by the search.
-/

namespace CampusNavigator

/-! ## Data model -/

/-- The sentinel `const int INF = INT_MAX`. -/
def INF : Int := 2147483647

/-- Result of an `int` operation whose exact value is `x`, reduced to 32 bits. -/
def wrap32 (x : Int) : Int := (x + 2147483648) % 4294967296 - 2147483648

/-- The values an `int` can hold. -/
def InIntRange (x : Int) : Prop := -2147483648 ≤ x ∧ x ≤ 2147483647

/-- A `std::vector<std::vector<int>>`. -/
abbrev Matrix := List (List Int)

/-- The read `adjMatrix[u][v]`. -/
def entry (adj : Matrix) (u v : Nat) : Int := (adj.getD u []).getD v 0

/-- The read `xs[i]` of a `std::vector<int>`. -/
def rdI (xs : List Int) (i : Nat) : Int := xs.getD i 0

/-- The read `xs[i]` of a `std::vector<bool>`. -/
def rdB (xs : List Bool) (i : Nat) : Bool := xs.getD i false

/-! ## The reference data of `createEdges` -/

/-- The walking matrix of `createEdges`. -/
def walkAdjMatrix : Matrix :=
  [[0, 30, INF, 50, 80, INF, INF, INF, INF, INF, INF, INF, INF, INF, INF],
   [30, 0, 80, INF, 70, INF, INF, INF, INF, INF, INF, INF, INF, INF, INF],
   [INF, 80, 0, INF, 90, 60, INF, INF, INF, INF, INF, INF, INF, INF, INF],
   [50, INF, INF, 0, 30, INF, INF, 60, INF, INF, INF, INF, INF, INF, INF],
   [80, 70, 90, 30, 0, 50, INF, 90, 80, 80, INF, INF, INF, INF, INF],
   [INF, INF, 60, INF, 50, 0, 80, INF, INF, 50, INF, INF, INF, INF, INF],
   [INF, INF, INF, INF, INF, 80, 0, INF, INF, 50, 70, 50, INF, INF, INF],
   [INF, INF, INF, 60, 90, INF, INF, 0, 80, 100, INF, INF, 120, INF, INF],
   [INF, INF, INF, INF, 80, INF, INF, 80, 0, 50, INF, INF, 90, 90, INF],
   [INF, INF, INF, INF, 80, 50, 50, 100, 50, 0, 70, INF, INF, 80, INF],
   [INF, INF, INF, INF, INF, INF, 70, INF, INF, 70, 0, 50, INF, 100, 80],
   [INF, INF, INF, INF, INF, INF, 50, INF, INF, INF, 50, 0, INF, INF, 60],
   [INF, INF, INF, INF, INF, INF, INF, 120, 90, INF, INF, INF, 0, 30, INF],
   [INF, INF, INF, INF, INF, INF, INF, INF, 90, 80, 100, INF, 30, 0, 80],
   [INF, INF, INF, INF, INF, INF, INF, INF, INF, INF, 80, 60, INF, 80, 0]]

/-- The cycling matrix of `createEdges`. -/
def bikeAdjMatrix : Matrix :=
  [[0, 30, INF, 50, 80, INF, INF, INF, INF, INF, INF, INF, INF, INF, INF],
   [30, 0, 80, INF, 70, INF, INF, INF, INF, INF, INF, INF, INF, INF, INF],
   [INF, 80, 0, INF, 90, 60, INF, INF, INF, INF, INF, INF, INF, INF, INF],
   [50, INF, INF, 0, 30, INF, INF, 60, INF, INF, INF, INF, INF, INF, INF],
   [80, 70, 90, 30, 0, 50, INF, INF, 80, 80, INF, INF, INF, INF, INF],
   [INF, INF, 60, INF, 50, 0, 80, INF, INF, 50, INF, INF, INF, INF, INF],
   [INF, INF, INF, INF, INF, 80, 0, INF, INF, 50, 70, INF, INF, INF, INF],
   [INF, INF, INF, 60, INF, INF, INF, 0, 80, 100, INF, INF, 120, INF, INF],
   [INF, INF, INF, INF, 80, INF, INF, 80, 0, 50, INF, INF, 90, 90, INF],
   [INF, INF, INF, INF, 80, 50, 50, 100, 50, 0, 70, INF, INF, INF, INF],
   [INF, INF, INF, INF, INF, INF, 70, INF, INF, 70, 0, 50, INF, 100, 80],
   [INF, INF, INF, INF, INF, INF, INF, INF, INF, INF, 50, 0, INF, INF, 60],
   [INF, INF, INF, INF, INF, INF, INF, 120, 90, INF, INF, INF, 0, 30, INF],
   [INF, INF, INF, INF, INF, INF, INF, INF, 90, 80, 100, INF, 30, 0, 80],
   [INF, INF, INF, INF, INF, INF, INF, INF, INF, INF, INF, 60, INF, 80, 0]]

/-- The shuttle-bus matrix of `createEdges`. -/
def busAdjMatrix : Matrix :=
  [[0, 30, INF, 50, INF, INF, INF, INF, INF, INF, INF, INF, INF, INF, INF],
   [30, 0, 80, INF, 70, INF, INF, INF, INF, INF, INF, INF, INF, INF, INF],
   [INF, 80, 0, INF, 90, 60, INF, INF, INF, INF, INF, INF, INF, INF, INF],
   [50, INF, INF, 0, 30, INF, INF, 60, INF, INF, INF, INF, INF, INF, INF],
   [INF, 70, 90, 30, 0, 50, INF, INF, 80, INF, INF, INF, INF, INF, INF],
   [INF, INF, 60, INF, 50, 0, 80, INF, INF, 50, INF, INF, INF, INF, INF],
   [INF, INF, INF, INF, INF, 80, 0, INF, INF, 50, 70, INF, INF, INF, INF],
   [INF, INF, INF, 60, INF, INF, INF, 0, 80, 100, INF, INF, INF, INF, INF],
   [INF, INF, INF, INF, 80, INF, INF, 80, 0, 50, INF, INF, 90, 90, INF],
   [INF, INF, INF, INF, INF, 50, 50, 100, 50, 0, 70, INF, INF, INF, INF],
   [INF, INF, INF, INF, INF, INF, 70, INF, INF, 70, 0, 50, INF, 100, 80],
   [INF, INF, INF, INF, INF, INF, INF, INF, INF, INF, 50, 0, INF, INF, 60],
   [INF, INF, INF, INF, INF, INF, INF, INF, 90, INF, INF, INF, 0, 30, INF],
   [INF, INF, INF, INF, INF, INF, INF, INF, 90, 80, 100, INF, 30, 0, 80],
   [INF, INF, INF, INF, INF, INF, INF, INF, INF, INF, INF, 60, INF, 80, 0]]

/-! ## The search of `calculatePath` (lines 267-290) -/

/-- The working arrays `dist`, `visited` and `prev` of `calculatePath`. -/
structure State where
  dist : List Int
  visited : List Bool
  prev : List Int
deriving DecidableEq

/-- The arrays as declared: `dist(15, INF)`, `visited(15, false)`, `prev(15, -1)`,
then `dist[start] = 0`. -/
def initState (start : Nat) : State :=
  { dist := (List.replicate 15 INF).set start 0
    visited := List.replicate 15 false
    prev := List.replicate 15 (-1) }

/-- Value of `u` after the inner loop `for (j = 0; j < n; j++)` of the selection
has run from `u = -1`: `if (!visited[j] && (u == -1 || dist[j] < dist[u])) u = j`. -/
def selectFrom (dist : List Int) (visited : List Bool) : Nat → Int
  | 0 => -1
  | n + 1 =>
    let u := selectFrom dist visited n
    if !rdB visited n && (u == -1 || rdI dist n < rdI dist u.toNat) then (n : Int) else u

/-- The index `u` the selection loop of one outer iteration ends with. -/
def selected (st : State) : Nat := (selectFrom st.dist st.visited 15).toNat

/-- The body of `for (v = 0; v < 15; ++v)` for one `v`:
`if (adjMatrix[u][v] != INF && dist[u] + adjMatrix[u][v] < dist[v])` then
`dist[v] = dist[u] + adjMatrix[u][v]; prev[v] = u`. -/
def relaxOne (adj : Matrix) (u : Nat) (st : State) (v : Nat) : State :=
  if entry adj u v ≠ INF ∧ wrap32 (rdI st.dist u + entry adj u v) < rdI st.dist v then
    { st with
      dist := st.dist.set v (wrap32 (rdI st.dist u + entry adj u v))
      prev := st.prev.set v (u : Int) }
  else st

/-- State after the relaxation loop has run for `v = 0 .. m-1`. -/
def relaxFrom (adj : Matrix) (u : Nat) : Nat → State → State
  | 0, st => st
  | m + 1, st => relaxOne adj u (relaxFrom adj u m st) m

/-- The statement `visited[u] = true`. -/
def markVisited (st : State) (u : Nat) : State :=
  { st with visited := st.visited.set u true }

/-- One iteration of the outer loop that does not `break`: mark `u`, then relax
from `u`. -/
def iteration (adj : Matrix) (st : State) : State :=
  relaxFrom adj (selected st) 15 (markVisited st (selected st))

/-- The outer loop `for (i = 0; i < 15; ++i)` run for at most `n` iterations,
with its `break` on `dist[u] == INF`. -/
def mainLoop (adj : Matrix) : Nat → State → State
  | 0, st => st
  | n + 1, st =>
    if rdI st.dist (selected st) = INF then st
    else mainLoop adj n (iteration adj st)

/-- The arrays when the outer loop is left. -/
def search (adj : Matrix) (start : Nat) : State :=
  mainLoop adj 15 (initState start)

/-! ## Reconstruction and reporting (lines 292-313) -/

/-- The loop `for (at = end; at != -1; at = prev[at]) path.push_back(at)`: the
pushed values in order, with `fuel` bounding the number of times the body may
run; `none` when the loop is still running after `fuel` pushes. -/
def walkBack (prev : List Int) : Nat → Int → Option (List Int)
  | 0, a => if a = -1 then some [] else none
  | fuel + 1, a =>
    if a = -1 then some []
    else (walkBack prev fuel (rdI prev a.toNat)).map (fun rest => a :: rest)

/-- What the search hands to the widgets. -/
inductive Outcome where
  | unreachable
  | route (path : List Int) (dist : Int)
deriving DecidableEq

/-- Lines 267-307 for a given matrix and 0-based `start` and `end`: the search,
the test `dist[end] == INF`, and the reversed walk along `prev`. -/
def findRoute (fuel : Nat) (adj : Matrix) (start finish : Nat) : Option Outcome :=
  let st := search adj start
  if rdI st.dist finish = INF then some Outcome.unreachable
  else (walkBack st.prev fuel (finish : Int)).map
    (fun pushed => Outcome.route pushed.reverse (rdI st.dist finish))

/-- The value and the `ok` flag of a call `text().toInt(&ok)`. -/
structure ToIntResult where
  value : Int
  ok : Bool
deriving DecidableEq

/-- An item added to the list widget `pathListWidget`. -/
inductive Item where
  | invalidInput
  | unreachable
  | route (path : List Int) (dist : Int)
deriving DecidableEq

/-- The text of an item; a route shows the 1-based ids `path[i] + 1`. -/
def Item.text : Item → String
  | Item.invalidInput => "请输入有效的起点和终点 (1-15)"
  | Item.unreachable => "无法从起点到达终点"
  | Item.route path dist =>
    "最短路径: " ++ " -> ".intercalate (path.map (fun x => toString (x + 1)))
      ++ ", 路程: " ++ toString dist ++ " 米"

/-- The members of the navigator that `calculatePath` reads or writes: the three
matrices, the items of `pathListWidget`, and `currentPath` of the drawing area. -/
structure Navigator where
  walkAdjMatrix : Matrix
  bikeAdjMatrix : Matrix
  busAdjMatrix : Matrix
  pathListWidget : List Item
  currentPath : List Int
deriving DecidableEq

/-- The entries of `travelModeComboBox`. -/
inductive Mode where
  | walk
  | bike
  | bus
deriving DecidableEq

/-- The text of a combo-box entry, as added by the constructor. -/
def Mode.text : Mode → String
  | Mode.walk => "步行"
  | Mode.bike => "自行车"
  | Mode.bus => "校车"

/-- The matrix of a mode. -/
def Navigator.matrix (nav : Navigator) : Mode → Matrix
  | Mode.walk => nav.walkAdjMatrix
  | Mode.bike => nav.bikeAdjMatrix
  | Mode.bus => nav.busAdjMatrix

/-- The method `createEdges`: it assigns the three matrices. -/
def createEdges (nav : Navigator) : Navigator :=
  { nav with
    walkAdjMatrix := walkAdjMatrix
    bikeAdjMatrix := bikeAdjMatrix
    busAdjMatrix := busAdjMatrix }

/-- The navigator after the constructor: `createEdges` has filled the matrices,
no item has been added and no path is drawn. -/
def constructed : Navigator :=
  createEdges
    { walkAdjMatrix := []
      bikeAdjMatrix := []
      busAdjMatrix := []
      pathListWidget := []
      currentPath := [] }

/-- The local `adjMatrix`: empty unless the mode text is one of the three. -/
def chooseMatrix (nav : Navigator) (travelMode : String) : Matrix :=
  if travelMode = "步行" then nav.walkAdjMatrix
  else if travelMode = "自行车" then nav.bikeAdjMatrix
  else if travelMode = "校车" then nav.busAdjMatrix
  else []

/-- The end of `calculatePath`: the item added and, for a route, `setCurrentPath`. -/
def present (nav : Navigator) : Outcome → Navigator
  | Outcome.unreachable => { nav with pathListWidget := nav.pathListWidget ++ [Item.unreachable] }
  | Outcome.route path dist =>
    { nav with pathListWidget := nav.pathListWidget ++ [Item.route path dist], currentPath := path }

/-- The slot `calculatePath`, from the two `toInt` results and the mode text. -/
def calculatePath (fuel : Nat) (nav : Navigator) (travelMode : String)
    (startIn endIn : ToIntResult) : Option Navigator :=
  let start := wrap32 (startIn.value - 1)
  let finish := wrap32 (endIn.value - 1)
  if !startIn.ok || !endIn.ok || start < 0 || start ≥ 15 || finish < 0 || finish ≥ 15 then
    some { nav with pathListWidget := nav.pathListWidget ++ [Item.invalidInput] }
  else
    (findRoute fuel (chooseMatrix nav travelMode) start.toNat finish.toNat).map (present nav)

/-- The `toInt` result of a text that parses to the display id `n`. -/
def typed (n : Int) : ToIntResult := { value := n, ok := true }

/-! ## The variant of the spec: relax unvisited neighbours only -/

/-- Relaxation of one `v` as the spec words it: only an unvisited neighbour is
relaxed. -/
def relaxOneUnvisited (adj : Matrix) (u : Nat) (st : State) (v : Nat) : State :=
  if rdB st.visited v = false ∧ entry adj u v ≠ INF ∧
      wrap32 (rdI st.dist u + entry adj u v) < rdI st.dist v then
    { st with
      dist := st.dist.set v (wrap32 (rdI st.dist u + entry adj u v))
      prev := st.prev.set v (u : Int) }
  else st

/-- The spec's relaxation for `v = 0 .. m-1`. -/
def relaxFromUnvisited (adj : Matrix) (u : Nat) : Nat → State → State
  | 0, st => st
  | m + 1, st => relaxOneUnvisited adj u (relaxFromUnvisited adj u m st) m

/-- One iteration in the spec's order: relax every unvisited neighbour of the
selected location, then mark it visited. -/
def iterationUnvisited (adj : Matrix) (st : State) : State :=
  markVisited (relaxFromUnvisited adj (selected st) 15 st) (selected st)

/-- The spec's loop: stop when the smallest remaining distance is infinite. -/
def mainLoopUnvisited (adj : Matrix) : Nat → State → State
  | 0, st => st
  | n + 1, st =>
    if rdI st.dist (selected st) = INF then st
    else mainLoopUnvisited adj n (iterationUnvisited adj st)

/-- The arrays the spec's variant ends with. -/
def searchUnvisited (adj : Matrix) (start : Nat) : State :=
  mainLoopUnvisited adj 15 (initState start)

/-! ## Graphs, walks and the hypotheses of the claims -/

/-- A non-empty sequence of locations in `0..14` whose consecutive pairs have a
non-`INF` entry. -/
def IsWalk (adj : Matrix) : List Nat → Prop
  | [] => False
  | [a] => a < 15
  | a :: b :: rest => a < 15 ∧ entry adj a b ≠ INF ∧ IsWalk adj (b :: rest)

/-- The sum of the entries along consecutive pairs, as an exact integer. -/
def walkCost (adj : Matrix) : List Nat → Int
  | a :: b :: rest => entry adj a b + walkCost adj (b :: rest)
  | _ => 0

/-- A directed path of non-`INF` entries from `s` to `e`. -/
def Connects (adj : Matrix) (s e : Nat) (p : List Nat) : Prop :=
  IsWalk adj p ∧ p.head? = some s ∧ p.getLast? = some e

/-- Fifteen rows of fifteen entries. -/
def Is15x15 (adj : Matrix) : Prop :=
  adj.length = 15 ∧ ∀ i, i < 15 → (adj.getD i []).length = 15

/-- Every entry is a non-negative `int` (this includes `INF`). -/
def NonNegEntries (adj : Matrix) : Prop :=
  ∀ i, i < 15 → ∀ j, j < 15 → 0 ≤ entry adj i j ∧ entry adj i j ≤ INF

/-- Every entry is `INF` or a non-negative integer of which no sum of `n`
reaches `INT_MAX`: the largest sum of `n` entries is `n` times the largest
entry, so the condition is that `n` times each entry stays below `INT_MAX`. -/
def SmallEntries (n : Int) (adj : Matrix) : Prop :=
  ∀ i, i < 15 → ∀ j, j < 15 →
    entry adj i j = INF ∨ (0 ≤ entry adj i j ∧ n * entry adj i j < INF)

/-- No addition `dist[u] + adjMatrix[u][v]` that the search from `start`
evaluates leaves the range of `int`: for every outer iteration `i` that does not
`break` and every `v` with `adjMatrix[u][v] != INF`, the exact sum of the values
read at that point is an `int`. Here `mainLoop adj i (initState start)` holds
the arrays at the start of iteration `i` (`mainLoop_succ`), and entries of which
no sum of 15 reaches `INT_MAX` are enough (`noOverflow_of_smallEntries`). -/
def NoOverflow (adj : Matrix) (start : Nat) : Prop :=
  ∀ i, i < 15 → ∀ v, v < 15 →
    rdI (mainLoop adj i (initState start)).dist
        (selected (mainLoop adj i (initState start))) ≠ INF →
    entry adj (selected (mainLoop adj i (initState start))) v ≠ INF →
    InIntRange
      (rdI (relaxFrom adj (selected (mainLoop adj i (initState start))) v
          (markVisited (mainLoop adj i (initState start))
            (selected (mainLoop adj i (initState start))))).dist
        (selected (mainLoop adj i (initState start)))
        + entry adj (selected (mainLoop adj i (initState start))) v)

/-- The invariant of the outer loop after `k` iterations of a search from `s`
in which no addition overflowed; `t` records the iteration in which a location
was marked visited. -/
structure Inv (adj : Matrix) (s : Nat) (st : State) (t : Nat → Nat) (k : Nat) : Prop where
  len_dist : st.dist.length = 15
  len_visited : st.visited.length = 15
  len_prev : st.prev.length = 15
  count : st.visited.count true = k
  nonneg : ∀ v, v < 15 → 0 ≤ rdI st.dist v
  le_inf : ∀ v, v < 15 → rdI st.dist v ≤ INF
  src_dist : rdI st.dist s = 0
  src_prev : rdI st.prev s = -1
  fresh : rdB st.visited s = false → ∀ v, v < 15 → v ≠ s → rdI st.dist v = INF
  finite : ∀ v, v < 15 → rdB st.visited v = true → rdI st.dist v ≠ INF
  stamp : ∀ v, v < 15 → rdB st.visited v = true → t v < k
  pred : ∀ v, v < 15 → v ≠ s → rdI st.dist v ≠ INF →
    ∃ u : Nat, u < 15 ∧ rdI st.prev v = (u : Int) ∧ rdB st.visited u = true ∧
      entry adj u v ≠ INF ∧ rdI st.dist v = rdI st.dist u + entry adj u v ∧
      (rdB st.visited v = true → t u < t v)
  order : ∀ a, a < 15 → ∀ b, b < 15 → rdB st.visited a = true → rdB st.visited b = false →
    rdI st.dist a ≤ rdI st.dist b
  closed : ∀ a, a < 15 → ∀ b, b < 15 → rdB st.visited a = true → entry adj a b ≠ INF →
    rdI st.dist b ≤ rdI st.dist a + entry adj a b

/-- A chain `0 -> 1 -> ... -> 14 -> 0` of fifteen edges of weight `w`, with a
zero diagonal and `INF` elsewhere. -/
def chainMatrix (w : Int) : Matrix :=
  (List.range 15).map (fun i => (List.range 15).map (fun j =>
    if j = i then 0 else if j = i + 1 ∨ (i = 14 ∧ j = 0) then w else INF))

/-- A navigator whose walking matrix is the chain of weight 153391689: fourteen
such entries sum to `INT_MAX - 1`. -/
def chainNavigator : Navigator :=
  { constructed with walkAdjMatrix := chainMatrix 153391689 }

/-- A navigator whose walking matrix has no edge at all. -/
def isolatedNavigator : Navigator :=
  { constructed with walkAdjMatrix := List.replicate 15 (List.replicate 15 INF) }

instance instDecidableIsWalk (adj : Matrix) : (p : List Nat) → Decidable (IsWalk adj p)
  | [] => isFalse (fun h => h)
  | [a] => inferInstanceAs (Decidable (a < 15))
  | a :: b :: rest =>
    have := instDecidableIsWalk adj (b :: rest)
    inferInstanceAs (Decidable (a < 15 ∧ entry adj a b ≠ INF ∧ IsWalk adj (b :: rest)))

instance instDecidableConnects (adj : Matrix) (s e : Nat) (p : List Nat) :
    Decidable (Connects adj s e p) :=
  inferInstanceAs (Decidable (IsWalk adj p ∧ p.head? = some s ∧ p.getLast? = some e))

instance instDecidableInIntRange (x : Int) : Decidable (InIntRange x) :=
  inferInstanceAs (Decidable (-2147483648 ≤ x ∧ x ≤ 2147483647))

instance instDecidableIs15x15 (adj : Matrix) : Decidable (Is15x15 adj) :=
  inferInstanceAs (Decidable (adj.length = 15 ∧ ∀ i, i < 15 → (adj.getD i []).length = 15))

instance instDecidableNonNegEntries (adj : Matrix) : Decidable (NonNegEntries adj) :=
  inferInstanceAs (Decidable (∀ i, i < 15 → ∀ j, j < 15 →
    0 ≤ entry adj i j ∧ entry adj i j ≤ INF))

instance instDecidableSmallEntries (n : Int) (adj : Matrix) : Decidable (SmallEntries n adj) :=
  inferInstanceAs (Decidable (∀ i, i < 15 → ∀ j, j < 15 →
    entry adj i j = INF ∨ (0 ≤ entry adj i j ∧ n * entry adj i j < INF)))

instance instDecidableNoOverflow (adj : Matrix) (start : Nat) : Decidable (NoOverflow adj start) := by
  unfold NoOverflow
  infer_instance


/-! ## Reads and writes of vectors -/

theorem wrap32_of_inIntRange {x : Int} (h : InIntRange x) : wrap32 x = x := by
  unfold InIntRange at h
  unfold wrap32
  omega

theorem rdI_set (l : List Int) (i : Nat) (x : Int) (j : Nat) :
    rdI (l.set i x) j = if j = i ∧ i < l.length then x else rdI l j := by
  unfold rdI
  induction l generalizing i j with
  | nil => simp
  | cons a t ih =>
    cases i with
    | zero => cases j <;> simp
    | succ i =>
      cases j with
      | zero => simp
      | succ j => simpa using ih i j

theorem rdB_set (l : List Bool) (i : Nat) (x : Bool) (j : Nat) :
    rdB (l.set i x) j = if j = i ∧ i < l.length then x else rdB l j := by
  unfold rdB
  induction l generalizing i j with
  | nil => simp
  | cons a t ih =>
    cases i with
    | zero => cases j <;> simp
    | succ i =>
      cases j with
      | zero => simp
      | succ j => simpa using ih i j

theorem rdI_replicate (n : Nat) (x : Int) (j : Nat) (h : j < n) :
    rdI (List.replicate n x) j = x := by
  unfold rdI
  induction n generalizing j with
  | zero => omega
  | succ n ih =>
    cases j with
    | zero => simp [List.replicate_succ]
    | succ j => simpa [List.replicate_succ] using ih j (by omega)

theorem rdB_replicate (n : Nat) (x : Bool) (j : Nat) (h : j < n) :
    rdB (List.replicate n x) j = x := by
  unfold rdB
  induction n generalizing j with
  | zero => omega
  | succ n ih =>
    cases j with
    | zero => simp [List.replicate_succ]
    | succ j => simpa [List.replicate_succ] using ih j (by omega)

theorem list_eq_of_rdI (a b : List Int) (hl : a.length = b.length)
    (h : ∀ j, j < a.length → rdI a j = rdI b j) : a = b := by
  induction a generalizing b with
  | nil =>
    cases b with
    | nil => rfl
    | cons y t => simp at hl
  | cons x s ih =>
    cases b with
    | nil => simp at hl
    | cons y t =>
      have h0 := h 0 (by simp)
      simp [rdI] at h0
      have ht : s = t := by
        apply ih t (by simpa using hl)
        intro j hj
        have := h (j + 1) (by simpa using hj)
        simpa [rdI] using this
      rw [h0, ht]

theorem count_set_true (l : List Bool) (i : Nat) (h : i < l.length) (hf : rdB l i = false) :
    (l.set i true).count true = l.count true + 1 := by
  unfold rdB at hf
  induction l generalizing i with
  | nil => simp at h
  | cons a t ih =>
    cases i with
    | zero =>
      simp at hf
      subst hf
      simp
    | succ i =>
      have := ih i (by simpa using h) (by simpa using hf)
      cases a <;> simp [List.count_cons, this]

theorem exists_unvisited (l : List Bool) (h : l.count true < l.length) :
    ∃ j, j < l.length ∧ rdB l j = false := by
  unfold rdB
  induction l with
  | nil => simp at h
  | cons a t ih =>
    cases a with
    | false => exact ⟨0, by simp, by simp⟩
    | true =>
      have h1 : t.count true < t.length := by simpa [List.count_cons] using h
      obtain ⟨j, hj, hv⟩ := ih h1
      exact ⟨j + 1, by simpa using hj, by simpa using hv⟩

theorem all_visited_of_count (l : List Bool) (h : l.count true = l.length) :
    ∀ j, j < l.length → rdB l j = true := by
  unfold rdB
  induction l with
  | nil => intro j hj; simp at hj
  | cons a t ih =>
    have hle : t.count true ≤ t.length := List.count_le_length _ _
    cases a with
    | false =>
      simp [List.count_cons] at h
      omega
    | true =>
      have h1 : t.count true = t.length := by simpa [List.count_cons] using h
      intro j hj
      cases j with
      | zero => simp
      | succ j => simpa using ih h1 j (by simpa using hj)

/-! ## The selection loop -/

theorem selectFrom_all_visited (dist : List Int) (visited : List Bool) (n : Nat)
    (h : ∀ j, j < n → rdB visited j = true) : selectFrom dist visited n = -1 := by
  induction n with
  | zero => rfl
  | succ n ih =>
    have hn := h n (by omega)
    have := ih (fun j hj => h j (by omega))
    simp [selectFrom, hn, this]

theorem selectFrom_spec (dist : List Int) (visited : List Bool) (n : Nat)
    (h : ∃ j, j < n ∧ rdB visited j = false) :
    ∃ u, u < n ∧ selectFrom dist visited n = (u : Int) ∧ rdB visited u = false ∧
      (∀ j, j < n → rdB visited j = false → rdI dist u ≤ rdI dist j) ∧
      (∀ j, j < n → rdB visited j = false → rdI dist j = rdI dist u → u ≤ j) := by
  induction n with
  | zero =>
    obtain ⟨j, hj, _⟩ := h
    omega
  | succ n ih =>
    by_cases hprev : ∃ j, j < n ∧ rdB visited j = false
    · obtain ⟨u, hu, hsel, hvis, hmin, htie⟩ := ih hprev
      have hne : ((u : Int) == -1) = false := by
        simp
      by_cases hc : rdB visited n = false ∧ rdI dist n < rdI dist u
      · refine ⟨n, by omega, ?_, hc.1, ?_, ?_⟩
        · simp [selectFrom, hsel, hc.1, hc.2]
        · intro j hj hvj
          by_cases hjn : j = n
          · subst hjn
            exact le_refl _
          · have := hmin j (by omega) hvj
            omega
        · intro j hj hvj hd
          by_cases hjn : j = n
          · omega
          · have := hmin j (by omega) hvj
            omega
      · refine ⟨u, by omega, ?_, hvis, ?_, ?_⟩
        · have hc2 : ¬ (rdB visited n = false ∧ rdI dist n < rdI dist u) := hc
          simp only [selectFrom, hsel, Int.toNat_ofNat, hne, Bool.false_or]
          by_cases hvn : rdB visited n = false
          · have hlt : ¬ rdI dist n < rdI dist u := fun hlt => hc2 ⟨hvn, hlt⟩
            simp [hvn, hlt]
          · simp at hvn
            simp [hvn]
        · intro j hj hvj
          by_cases hjn : j = n
          · subst hjn
            have hlt : ¬ rdI dist j < rdI dist u := fun hlt => hc ⟨hvj, hlt⟩
            omega
          · exact hmin j (by omega) hvj
        · intro j hj hvj hd
          by_cases hjn : j = n
          · omega
          · exact htie j (by omega) hvj hd
    · have hall : ∀ j, j < n → rdB visited j = true := by
        intro j hj
        by_contra hv
        exact hprev ⟨j, hj, by simpa using hv⟩
      have hsel := selectFrom_all_visited dist visited n hall
      obtain ⟨j, hj, hvj⟩ := h
      have hjn : j = n := by
        by_contra hne
        have := hall j (by omega)
        rw [this] at hvj
        exact Bool.noConfusion hvj
      subst hjn
      refine ⟨j, by omega, ?_, hvj, ?_, ?_⟩
      · simp [selectFrom, hsel, hvj]
      · intro k hk hvk
        by_cases hkj : k = j
        · subst hkj
          exact le_refl _
        · have := hall k (by omega)
          rw [this] at hvk
          exact Bool.noConfusion hvk
      · intro k hk hvk _
        by_cases hkj : k = j
        · omega
        · have := hall k (by omega)
          rw [this] at hvk
          exact Bool.noConfusion hvk

/-! ## The relaxation loop -/

theorem relaxOne_visited (adj : Matrix) (u : Nat) (st : State) (v : Nat) :
    (relaxOne adj u st v).visited = st.visited := by
  unfold relaxOne
  split <;> rfl

theorem relaxOne_dist_length (adj : Matrix) (u : Nat) (st : State) (v : Nat) :
    (relaxOne adj u st v).dist.length = st.dist.length := by
  unfold relaxOne
  split <;> simp

theorem relaxOne_prev_length (adj : Matrix) (u : Nat) (st : State) (v : Nat) :
    (relaxOne adj u st v).prev.length = st.prev.length := by
  unfold relaxOne
  split <;> simp

theorem relaxFrom_visited (adj : Matrix) (u : Nat) (m : Nat) (st : State) :
    (relaxFrom adj u m st).visited = st.visited := by
  induction m with
  | zero => rfl
  | succ m ih => simp [relaxFrom, relaxOne_visited, ih]

theorem relaxFrom_dist_length (adj : Matrix) (u : Nat) (m : Nat) (st : State) :
    (relaxFrom adj u m st).dist.length = st.dist.length := by
  induction m with
  | zero => rfl
  | succ m ih => simp [relaxFrom, relaxOne_dist_length, ih]

theorem relaxFrom_prev_length (adj : Matrix) (u : Nat) (m : Nat) (st : State) :
    (relaxFrom adj u m st).prev.length = st.prev.length := by
  induction m with
  | zero => rfl
  | succ m ih => simp [relaxFrom, relaxOne_prev_length, ih]

theorem relaxOne_dist (adj : Matrix) (u : Nat) (st : State) (v x : Nat) :
    rdI (relaxOne adj u st v).dist x =
      if (entry adj u v ≠ INF ∧ wrap32 (rdI st.dist u + entry adj u v) < rdI st.dist v) ∧
          x = v ∧ v < st.dist.length
      then wrap32 (rdI st.dist u + entry adj u v) else rdI st.dist x := by
  unfold relaxOne
  by_cases hc : entry adj u v ≠ INF ∧ wrap32 (rdI st.dist u + entry adj u v) < rdI st.dist v
  · rw [if_pos hc]
    simp only [rdI_set, hc, true_and, ne_eq, not_false_eq_true, and_self]
  · rw [if_neg hc]
    simp only [hc, false_and, if_false]

theorem relaxOne_prev (adj : Matrix) (u : Nat) (st : State) (v x : Nat) :
    rdI (relaxOne adj u st v).prev x =
      if (entry adj u v ≠ INF ∧ wrap32 (rdI st.dist u + entry adj u v) < rdI st.dist v) ∧
          x = v ∧ v < st.prev.length
      then (u : Int) else rdI st.prev x := by
  unfold relaxOne
  by_cases hc : entry adj u v ≠ INF ∧ wrap32 (rdI st.dist u + entry adj u v) < rdI st.dist v
  · rw [if_pos hc]
    simp only [rdI_set, hc, true_and, ne_eq, not_false_eq_true, and_self]
  · rw [if_neg hc]
    simp only [hc, false_and, if_false]

/-- Without overflow, and with a non-negative entry `adjMatrix[u][u]`, the
relaxation loop is a pointwise update that reads `dist[u]` as it was at the
start of the loop. -/
theorem relaxFrom_spec (adj : Matrix) (u : Nat) (st : State)
    (hd : st.dist.length = 15) (hp : st.prev.length = 15) (hu : u < 15)
    (hself : 0 ≤ entry adj u u) (m : Nat) (hm : m ≤ 15)
    (hno : ∀ v, v < m → entry adj u v ≠ INF →
      InIntRange (rdI (relaxFrom adj u v st).dist u + entry adj u v)) :
    ∀ x, x < 15 →
      rdI (relaxFrom adj u m st).dist x =
        (if x < m ∧ entry adj u x ≠ INF ∧ rdI st.dist u + entry adj u x < rdI st.dist x
          then rdI st.dist u + entry adj u x else rdI st.dist x) ∧
      rdI (relaxFrom adj u m st).prev x =
        (if x < m ∧ entry adj u x ≠ INF ∧ rdI st.dist u + entry adj u x < rdI st.dist x
          then (u : Int) else rdI st.prev x) := by
  induction m with
  | zero =>
    intro x _
    simp [relaxFrom]
  | succ m ih =>
    have ihm := ih (by omega) (fun v hv => hno v (by omega))
    have hdu : rdI (relaxFrom adj u m st).dist u = rdI st.dist u := by
      rw [(ihm u hu).1]
      split_ifs with h
      · omega
      · rfl
    have hdm : rdI (relaxFrom adj u m st).dist m = rdI st.dist m := by
      rw [(ihm m (by omega)).1]
      split_ifs with h
      · omega
      · rfl
    have hlen1 : m < (relaxFrom adj u m st).dist.length := by
      rw [relaxFrom_dist_length]
      omega
    have hlen2 : m < (relaxFrom adj u m st).prev.length := by
      rw [relaxFrom_prev_length]
      omega
    have hw : entry adj u m ≠ INF →
        wrap32 (rdI st.dist u + entry adj u m) = rdI st.dist u + entry adj u m := by
      intro hne
      have := hno m (by omega) hne
      rw [hdu] at this
      exact wrap32_of_inIntRange this
    intro x hx
    simp only [relaxFrom]
    rw [relaxOne_dist, relaxOne_prev, hdu, hdm, (ihm x hx).1, (ihm x hx).2]
    by_cases hne : entry adj u m ≠ INF
    · rw [hw hne]
      by_cases hxm : x = m
      · subst hxm
        simp only [hne, hlen1, hlen2, lt_self_iff_false, false_and, if_false, true_and, and_true,
          Nat.lt_succ_self, ne_eq, not_false_eq_true]
      · have h1 : (x < m + 1) = (x < m) := by
          apply propext
          omega
        simp only [hxm, false_and, and_false, if_false, h1, and_self]
    · have hxm : x = m → entry adj u x = INF := by
        intro h
        subst h
        simpa using hne
      have h1 : (x < m + 1 ∧ entry adj u x ≠ INF ∧ rdI st.dist u + entry adj u x < rdI st.dist x)
          = (x < m ∧ entry adj u x ≠ INF ∧ rdI st.dist u + entry adj u x < rdI st.dist x) := by
        apply propext
        constructor
        · rintro ⟨a, b, c⟩
          refine ⟨?_, b, c⟩
          by_contra hlt
          exact b (hxm (by omega))
        · rintro ⟨a, b, c⟩
          exact ⟨by omega, b, c⟩
      simp only [hne, false_and, if_false, h1, and_self]

/-! ## One iteration of the outer loop keeps the invariant -/

theorem selected_spec (st : State) (hlen : st.visited.length = 15)
    (hcount : st.visited.count true < 15) :
    selected st < 15 ∧ rdB st.visited (selected st) = false ∧
      (∀ j, j < 15 → rdB st.visited j = false → rdI st.dist (selected st) ≤ rdI st.dist j) ∧
      (∀ j, j < 15 → rdB st.visited j = false → rdI st.dist j = rdI st.dist (selected st) →
        selected st ≤ j) := by
  obtain ⟨j, hj, hvj⟩ := exists_unvisited st.visited (by omega)
  obtain ⟨u, hu, hsel, hvis, hmin, htie⟩ :=
    selectFrom_spec st.dist st.visited 15 ⟨j, by omega, hvj⟩
  have : selected st = u := by
    unfold selected
    rw [hsel]
    rfl
  rw [this]
  exact ⟨hu, hvis, hmin, htie⟩

theorem iteration_inv (adj : Matrix) (s : Nat) (st : State) (t : Nat → Nat) (k : Nat)
    (hnn : NonNegEntries adj) (hInv : Inv adj s st t k) (hk : k < 15)
    (hsel : rdI st.dist (selected st) ≠ INF)
    (hno : ∀ v, v < 15 → entry adj (selected st) v ≠ INF →
      InIntRange (rdI (relaxFrom adj (selected st) v (markVisited st (selected st))).dist
        (selected st) + entry adj (selected st) v)) :
    Inv adj s (iteration adj st) (Function.update t (selected st) k) (k + 1) := by
  obtain ⟨hu, hvu, hmin, _⟩ :=
    selected_spec st hInv.len_visited (by rw [hInv.count]; exact hk)
  have hit : iteration adj st = relaxFrom adj (selected st) 15 (markVisited st (selected st)) :=
    rfl
  have hspec := relaxFrom_spec adj (selected st) (markVisited st (selected st))
    hInv.len_dist hInv.len_prev hu (hnn _ hu _ hu).1 15 (le_refl _) (fun v hv => hno v hv)
  rw [← hit] at hspec
  have hvis : (iteration adj st).visited = st.visited.set (selected st) true := by
    rw [hit, relaxFrom_visited]
    rfl
  have hdl : (iteration adj st).dist.length = 15 := by
    rw [hit, relaxFrom_dist_length]
    exact hInv.len_dist
  have hpl : (iteration adj st).prev.length = 15 := by
    rw [hit, relaxFrom_prev_length]
    exact hInv.len_prev
  generalize iteration adj st = st2 at hspec hvis hdl hpl ⊢
  generalize selected st = u at hspec hvis hu hvu hmin hsel ⊢
  have hw : ∀ x, x < 15 → 0 ≤ entry adj u x := fun x hx => (hnn u hu x hx).1
  have hD : ∀ x, x < 15 → rdI st2.dist x =
      if entry adj u x ≠ INF ∧ rdI st.dist u + entry adj u x < rdI st.dist x
      then rdI st.dist u + entry adj u x else rdI st.dist x := by
    intro x hx
    have := (hspec x hx).1
    simpa [markVisited, hx] using this
  have hP : ∀ x, x < 15 → rdI st2.prev x =
      if entry adj u x ≠ INF ∧ rdI st.dist u + entry adj u x < rdI st.dist x
      then (u : Int) else rdI st.prev x := by
    intro x hx
    have := (hspec x hx).2
    simpa [markVisited, hx] using this
  have hV : ∀ x, rdB st2.visited x = if x = u then true else rdB st.visited x := by
    intro x
    rw [hvis, rdB_set]
    have : u < st.visited.length := by
      rw [hInv.len_visited]
      exact hu
    simp [this]
  have hle : ∀ x, x < 15 → rdB st2.visited x = true → rdI st.dist x ≤ rdI st.dist u := by
    intro x hx hvx
    rw [hV] at hvx
    by_cases hxu : x = u
    · rw [hxu]
    · rw [if_neg hxu] at hvx
      exact hInv.order x hx u hu hvx hvu
  have hfrozen : ∀ x, x < 15 → rdB st2.visited x = true →
      rdI st2.dist x = rdI st.dist x ∧ rdI st2.prev x = rdI st.prev x := by
    intro x hx hvx
    have h1 := hle x hx hvx
    have h2 := hw x hx
    rw [hD x hx, hP x hx]
    have : ¬ (entry adj u x ≠ INF ∧ rdI st.dist u + entry adj u x < rdI st.dist x) := by
      rintro ⟨_, h3⟩
      omega
    rw [if_neg this, if_neg this]
    exact ⟨rfl, rfl⟩
  have hsv : rdB st2.visited s = true := by
    rw [hV]
    by_cases hsu : s = u
    · rw [if_pos hsu]
    · rw [if_neg hsu]
      by_contra hvs
      have hvs2 : rdB st.visited s = false := by simpa using hvs
      have := hInv.fresh hvs2 u hu (fun h => hsu h.symm)
      exact hsel this
  have hs15 : s < 15 := by
    by_contra hge
    have : rdB st2.visited s = false := by
      rw [hvis]
      unfold rdB
      rw [List.getD_eq_default]
      rw [List.length_set, hInv.len_visited]
      omega
    rw [this] at hsv
    exact Bool.noConfusion hsv
  refine
    { len_dist := hdl
      len_visited := by rw [hvis, List.length_set]; exact hInv.len_visited
      len_prev := hpl
      count := ?_
      nonneg := ?_
      le_inf := ?_
      src_dist := ?_
      src_prev := ?_
      fresh := ?_
      finite := ?_
      stamp := ?_
      pred := ?_
      order := ?_
      closed := ?_ }
  · rw [hvis, count_set_true _ _ (by rw [hInv.len_visited]; exact hu) hvu, hInv.count]
  · intro v hv
    rw [hD v hv]
    have := hInv.nonneg v hv
    have := hInv.nonneg u hu
    have := hw v hv
    split_ifs <;> omega
  · intro v hv
    rw [hD v hv]
    have := hInv.le_inf v hv
    split_ifs with h
    · omega
    · exact this
  · rw [(hfrozen s hs15 hsv).1]
    exact hInv.src_dist
  · rw [(hfrozen s hs15 hsv).2]
    exact hInv.src_prev
  · intro h
    rw [h] at hsv
    exact Bool.noConfusion hsv
  · intro v hv hvv
    rw [(hfrozen v hv hvv).1]
    rw [hV] at hvv
    by_cases hvu2 : v = u
    · rw [hvu2]
      exact hsel
    · rw [if_neg hvu2] at hvv
      exact hInv.finite v hv hvv
  · intro v hv hvv
    rw [hV] at hvv
    by_cases hvu2 : v = u
    · rw [hvu2, Function.update_same]
      omega
    · rw [if_neg hvu2] at hvv
      rw [Function.update_noteq hvu2]
      have := hInv.stamp v hv hvv
      omega
  · intro v hv hvs hdv
    by_cases hc : entry adj u v ≠ INF ∧ rdI st.dist u + entry adj u v < rdI st.dist v
    · have hnv : rdB st2.visited v = false := by
        by_contra hvv
        have hvv2 : rdB st2.visited v = true := by simpa using hvv
        have := hle v hv hvv2
        have := hw v hv
        omega
      have huv : rdB st2.visited u = true := by
        rw [hV]
        simp
      refine ⟨u, hu, ?_, huv, hc.1, ?_, ?_⟩
      · rw [hP v hv, if_pos hc]
      · rw [hD v hv, if_pos hc, (hfrozen u hu huv).1]
      · intro h
        rw [hnv] at h
        exact Bool.noConfusion h
    · have hdv2 : rdI st.dist v ≠ INF := by
        rw [hD v hv, if_neg hc] at hdv
        exact hdv
      obtain ⟨p, hp, hpv, hvp, hev, hdp, htp⟩ := hInv.pred v hv hvs hdv2
      have hpu : p ≠ u := by
        intro h
        rw [h, hvu] at hvp
        exact Bool.noConfusion hvp
      have hvp2 : rdB st2.visited p = true := by
        rw [hV, if_neg hpu]
        exact hvp
      refine ⟨p, hp, ?_, hvp2, hev, ?_, ?_⟩
      · rw [hP v hv, if_neg hc]
        exact hpv
      · rw [hD v hv, if_neg hc, (hfrozen p hp hvp2).1]
        exact hdp
      · intro hvv
        rw [hV] at hvv
        rw [Function.update_noteq hpu]
        by_cases hvu2 : v = u
        · rw [hvu2, Function.update_same]
          exact hInv.stamp p hp hvp
        · rw [if_neg hvu2] at hvv
          rw [Function.update_noteq hvu2]
          exact htp hvv
  · intro a ha b hb hva hvb
    rw [(hfrozen a ha hva).1]
    have h1 := hle a ha hva
    have hvb2 : rdB st.visited b = false := by
      rw [hV] at hvb
      by_cases hbu : b = u
      · rw [if_pos hbu] at hvb
        exact Bool.noConfusion hvb
      · rw [if_neg hbu] at hvb
        exact hvb
    have h2 := hmin b hb hvb2
    have h3 := hw b hb
    rw [hD b hb]
    split_ifs <;> omega
  · intro a ha b hb hva hab
    rw [(hfrozen a ha hva).1]
    by_cases hau : a = u
    · rw [hau] at hab ⊢
      rw [hD b hb]
      split_ifs with h
      · exact le_refl _
      · have : ¬ rdI st.dist u + entry adj u b < rdI st.dist b := fun h2 => h ⟨hab, h2⟩
        omega
    · have hva2 : rdB st.visited a = true := by
        rw [hV, if_neg hau] at hva
        exact hva
      have h1 := hInv.closed a ha b hb hva2 hab
      rw [hD b hb]
      split_ifs with h
      · omega
      · exact h1

theorem iteration_visited (adj : Matrix) (st : State) :
    (iteration adj st).visited = st.visited.set (selected st) true := by
  unfold iteration
  rw [relaxFrom_visited]
  rfl

theorem iteration_dist (adj : Matrix) (st : State)
    (hd : st.dist.length = 15) (hp : st.prev.length = 15) (hu : selected st < 15)
    (hself : 0 ≤ entry adj (selected st) (selected st))
    (hno : ∀ v, v < 15 → entry adj (selected st) v ≠ INF →
      InIntRange (rdI (relaxFrom adj (selected st) v (markVisited st (selected st))).dist
        (selected st) + entry adj (selected st) v)) :
    ∀ x, x < 15 → rdI (iteration adj st).dist x =
      if entry adj (selected st) x ≠ INF ∧
          rdI st.dist (selected st) + entry adj (selected st) x < rdI st.dist x
      then rdI st.dist (selected st) + entry adj (selected st) x else rdI st.dist x := by
  intro x hx
  have hspec := relaxFrom_spec adj (selected st) (markVisited st (selected st))
    hd hp hu hself 15 (le_refl _) (fun v hv => hno v hv)
  have := (hspec x hx).1
  simpa [markVisited, hx, iteration] using this

/-! ## The outer loop -/

theorem mainLoop_succ (adj : Matrix) (n : Nat) (st : State) :
    mainLoop adj (n + 1) st =
      if rdI (mainLoop adj n st).dist (selected (mainLoop adj n st)) = INF
      then mainLoop adj n st else iteration adj (mainLoop adj n st) := by
  induction n generalizing st with
  | zero => simp [mainLoop]
  | succ n ih =>
    by_cases hb : rdI st.dist (selected st) = INF
    · have h1 : mainLoop adj (n + 1) st = st := by simp [mainLoop, hb]
      have h2 : mainLoop adj (n + 1 + 1) st = st := by
        rw [mainLoop]
        simp [hb]
      rw [h2, h1, if_pos hb]
    · have h1 : mainLoop adj (n + 1) st = mainLoop adj n (iteration adj st) := by
        rw [mainLoop]
        simp [hb]
      have h2 : mainLoop adj (n + 1 + 1) st = mainLoop adj (n + 1) (iteration adj st) := by
        rw [mainLoop]
        simp [hb]
      rw [h2, h1, ih]

theorem initState_inv (adj : Matrix) (s : Nat) (hs : s < 15) :
    Inv adj s (initState s) (fun _ => 0) 0 := by
  have hD : ∀ v, v < 15 → rdI (initState s).dist v = if v = s then 0 else INF := by
    intro v hv
    unfold initState
    simp only [rdI_set, List.length_replicate, hs, and_true]
    split_ifs
    · rfl
    · exact rdI_replicate 15 INF v hv
  have hV : ∀ v, v < 15 → rdB (initState s).visited v = false := by
    intro v hv
    exact rdB_replicate 15 false v hv
  have hP : ∀ v, v < 15 → rdI (initState s).prev v = -1 := by
    intro v hv
    exact rdI_replicate 15 (-1) v hv
  refine
    { len_dist := by simp [initState]
      len_visited := by simp [initState]
      len_prev := by simp [initState]
      count := by simp [initState]
      nonneg := ?_
      le_inf := ?_
      src_dist := by rw [hD s hs, if_pos rfl]
      src_prev := hP s hs
      fresh := ?_
      finite := ?_
      stamp := ?_
      pred := ?_
      order := ?_
      closed := ?_ }
  · intro v hv
    rw [hD v hv]
    split_ifs
    · exact le_refl _
    · unfold INF
      omega
  · intro v hv
    rw [hD v hv]
    split_ifs
    · unfold INF
      omega
    · exact le_refl _
  · intro _ v hv hvs
    rw [hD v hv, if_neg hvs]
  · intro v hv h
    rw [hV v hv] at h
    exact Bool.noConfusion h
  · intro v hv h
    rw [hV v hv] at h
    exact Bool.noConfusion h
  · intro v hv hvs h
    rw [hD v hv, if_neg hvs] at h
    exact absurd rfl h
  · intro a ha b _ h
    rw [hV a ha] at h
    exact Bool.noConfusion h
  · intro a ha b _ h
    rw [hV a ha] at h
    exact Bool.noConfusion h

/-- Invariant of the first `n` iterations when none of their additions
overflows: after them either exactly `n` locations are visited or the loop has
met its `break`. -/
theorem mainLoop_inv (adj : Matrix) (s : Nat) (hs : s < 15) (hnn : NonNegEntries adj)
    (n : Nat) (hn : n ≤ 15)
    (hno : ∀ i, i < n → ∀ v, v < 15 →
      rdI (mainLoop adj i (initState s)).dist (selected (mainLoop adj i (initState s))) ≠ INF →
      entry adj (selected (mainLoop adj i (initState s))) v ≠ INF →
      InIntRange
        (rdI (relaxFrom adj (selected (mainLoop adj i (initState s))) v
            (markVisited (mainLoop adj i (initState s))
              (selected (mainLoop adj i (initState s))))).dist
          (selected (mainLoop adj i (initState s)))
          + entry adj (selected (mainLoop adj i (initState s))) v)) :
    ∃ t k, Inv adj s (mainLoop adj n (initState s)) t k ∧
      (k = n ∨ rdI (mainLoop adj n (initState s)).dist
        (selected (mainLoop adj n (initState s))) = INF) := by
  induction n with
  | zero => exact ⟨fun _ => 0, 0, initState_inv adj s hs, Or.inl rfl⟩
  | succ n ih =>
    obtain ⟨t, k, hInv, hk⟩ := ih (by omega) (fun i hi => hno i (by omega))
    rw [mainLoop_succ]
    by_cases hb : rdI (mainLoop adj n (initState s)).dist
        (selected (mainLoop adj n (initState s))) = INF
    · rw [if_pos hb]
      exact ⟨t, k, hInv, Or.inr hb⟩
    · rw [if_neg hb]
      have hkn : k = n := hk.resolve_right hb
      subst hkn
      exact ⟨_, k + 1, iteration_inv adj s _ t k hnn hInv (by omega) hb
        (fun v hv hne => hno k (by omega) v hv hb hne), Or.inl rfl⟩

theorem search_inv (adj : Matrix) (s : Nat) (hs : s < 15) (hnn : NonNegEntries adj)
    (hno : NoOverflow adj s) :
    ∃ t k, Inv adj s (search adj s) t k ∧
      ∀ v, v < 15 → rdB (search adj s).visited v = false → rdI (search adj s).dist v = INF := by
  obtain ⟨t, k, hInv, hk⟩ := mainLoop_inv adj s hs hnn 15 (le_refl _)
    (fun i hi v hv => hno i hi v hv)
  refine ⟨t, k, hInv, ?_⟩
  intro v hv hvv
  rcases hk with hk | hk
  · have := all_visited_of_count (mainLoop adj 15 (initState s)).visited
      (by rw [hInv.count, hInv.len_visited, hk]) v (by rw [hInv.len_visited]; exact hv)
    unfold search at hvv
    rw [this] at hvv
    exact Bool.noConfusion hvv
  · have hcount : (mainLoop adj 15 (initState s)).visited.count true < 15 := by
      have hle := List.count_le_length true (mainLoop adj 15 (initState s)).visited
      rw [hInv.len_visited] at hle
      by_contra hge
      have := all_visited_of_count (mainLoop adj 15 (initState s)).visited
        (by rw [hInv.len_visited]; omega) v (by rw [hInv.len_visited]; exact hv)
      unfold search at hvv
      rw [this] at hvv
      exact Bool.noConfusion hvv
    obtain ⟨_, _, hmin, _⟩ := selected_spec _ hInv.len_visited hcount
    have h1 := hmin v hv hvv
    have h2 := hInv.le_inf v hv
    unfold search
    rw [hk] at h1
    omega

/-- Whatever the entries are, when iteration `i` of the outer loop starts all
arrays have length 15 and at most `i` locations are visited. -/
theorem mainLoop_count (adj : Matrix) (s : Nat) (i : Nat) (hi : i ≤ 15) :
    (mainLoop adj i (initState s)).dist.length = 15 ∧
    (mainLoop adj i (initState s)).visited.length = 15 ∧
    (mainLoop adj i (initState s)).prev.length = 15 ∧
    (mainLoop adj i (initState s)).visited.count true ≤ i := by
  induction i with
  | zero => simp [mainLoop, initState]
  | succ n ih =>
    obtain ⟨h1, h2, h3, h4⟩ := ih (by omega)
    rw [mainLoop_succ]
    split_ifs with hb
    · exact ⟨h1, h2, h3, by omega⟩
    · obtain ⟨hu, hvu, _, _⟩ := selected_spec _ h2 (by omega)
      refine ⟨?_, ?_, ?_, ?_⟩
      · unfold iteration
        rw [relaxFrom_dist_length]
        exact h1
      · rw [iteration_visited, List.length_set]
        exact h2
      · unfold iteration
        rw [relaxFrom_prev_length]
        exact h3
      · rw [iteration_visited, count_set_true _ _ (by rw [h2]; exact hu) hvu]
        omega

/-- In every iteration the outer loop runs, the selection loop ends with the
index of an unvisited location in `0..14`, never with `-1`. -/
theorem selection_in_range (adj : Matrix) (s : Nat) (i : Nat) (hi : i < 15) :
    ∃ u : Nat, u < 15 ∧
      selectFrom (mainLoop adj i (initState s)).dist
        (mainLoop adj i (initState s)).visited 15 = (u : Int) ∧
      rdB (mainLoop adj i (initState s)).visited u = false := by
  obtain ⟨_, h2, _, h4⟩ := mainLoop_count adj s i (by omega)
  obtain ⟨j, hj, hvj⟩ := exists_unvisited (mainLoop adj i (initState s)).visited (by omega)
  obtain ⟨u, hu, hsel, hvis, _, _⟩ :=
    selectFrom_spec (mainLoop adj i (initState s)).dist
      (mainLoop adj i (initState s)).visited 15 ⟨j, by omega, hvj⟩
  exact ⟨u, hu, hsel, hvis⟩

/-! ## Small entries exclude overflow -/

theorem relax_inIntRange (adj : Matrix) (u : Nat) (st : State)
    (hd : st.dist.length = 15) (hp : st.prev.length = 15) (hu : u < 15)
    (hself : 0 ≤ entry adj u u) (B : Int)
    (hub : 0 ≤ rdI st.dist u ∧ rdI st.dist u ≤ B)
    (hwb : ∀ v, v < 15 → entry adj u v ≠ INF →
      0 ≤ entry adj u v ∧ B + entry adj u v ≤ 2147483647) :
    ∀ v, v < 15 → entry adj u v ≠ INF →
      InIntRange (rdI (relaxFrom adj u v st).dist u + entry adj u v) := by
  intro v
  induction v using Nat.strong_induction_on with
  | _ v ih =>
    intro hv hne
    have hspec := relaxFrom_spec adj u st hd hp hu hself v (by omega)
      (fun x hx hxne => ih x hx (by omega) hxne)
    have hdu : rdI (relaxFrom adj u v st).dist u = rdI st.dist u := by
      rw [(hspec u hu).1]
      split_ifs with h
      · omega
      · rfl
    rw [hdu]
    have := hwb v hv hne
    unfold InIntRange
    omega

theorem smallEntries_nonNeg (adj : Matrix) (h : SmallEntries 15 adj) : NonNegEntries adj := by
  intro i hi j hj
  rcases h i hi j hj with h1 | h1
  · rw [h1]
    unfold INF
    omega
  · unfold INF at h1 ⊢
    omega

/-- With entries of which no sum of 15 reaches `INT_MAX`, no addition of the
first `n` iterations overflows, a finite distance after them is at most `n`
times the largest entry, and a visited location is at most 14 entries away. -/
theorem small_run (adj : Matrix) (s : Nat) (hs : s < 15) (hsm : SmallEntries 15 adj)
    (n : Nat) (hn : n ≤ 15) :
    (∀ i, i < n → ∀ v, v < 15 →
      rdI (mainLoop adj i (initState s)).dist (selected (mainLoop adj i (initState s))) ≠ INF →
      entry adj (selected (mainLoop adj i (initState s))) v ≠ INF →
      InIntRange
        (rdI (relaxFrom adj (selected (mainLoop adj i (initState s))) v
            (markVisited (mainLoop adj i (initState s))
              (selected (mainLoop adj i (initState s))))).dist
          (selected (mainLoop adj i (initState s)))
          + entry adj (selected (mainLoop adj i (initState s))) v)) ∧
    (∀ v, v < 15 → rdI (mainLoop adj n (initState s)).dist v = INF ∨
      rdI (mainLoop adj n (initState s)).dist v ≤ n * 143165576) ∧
    (∀ v, v < 15 → rdB (mainLoop adj n (initState s)).visited v = true →
      rdI (mainLoop adj n (initState s)).dist v ≤ 14 * 143165576) := by
  have hnn := smallEntries_nonNeg adj hsm
  induction n with
  | zero =>
    refine ⟨fun i hi => by omega, ?_, ?_⟩
    · intro v hv
      have hI := initState_inv adj s hs
      by_cases hvs : v = s
      · right
        rw [hvs]
        show rdI (initState s).dist s ≤ _
        rw [hI.src_dist]
        omega
      · left
        exact hI.fresh (rdB_replicate 15 false s hs) v hv hvs
    · intro v hv h
      have : rdB (initState s).visited v = false := rdB_replicate 15 false v hv
      rw [show mainLoop adj 0 (initState s) = initState s from rfl, this] at h
      exact Bool.noConfusion h
  | succ n ih =>
    obtain ⟨hA, hB, hC⟩ := ih (by omega)
    obtain ⟨t, k, hInv, hk⟩ := mainLoop_inv adj s hs hnn n (by omega) hA
    have hsucc := mainLoop_succ adj n (initState s)
    generalize hst : mainLoop adj n (initState s) = st at hB hC hInv hk hsucc
    have hsel : rdI st.dist (selected st) ≠ INF →
        selected st < 15 ∧ rdI st.dist (selected st) ≤ n * 143165576 ∧ n < 15 := by
      intro hb
      have hkn : k = n := hk.resolve_right hb
      obtain ⟨hu, _, _, _⟩ := selected_spec st hInv.len_visited (by rw [hInv.count]; omega)
      refine ⟨hu, ?_, by omega⟩
      rcases hB _ hu with h | h
      · exact absurd h hb
      · exact h
    have hstep : rdI st.dist (selected st) ≠ INF → ∀ v, v < 15 →
        entry adj (selected st) v ≠ INF →
        InIntRange (rdI (relaxFrom adj (selected st) v (markVisited st (selected st))).dist
          (selected st) + entry adj (selected st) v) := by
      intro hb
      obtain ⟨hu, hbound, hn15⟩ := hsel hb
      have hb14 : rdI st.dist (selected st) ≤ 14 * 143165576 := by omega
      apply relax_inIntRange adj (selected st) (markVisited st (selected st))
        hInv.len_dist hInv.len_prev hu (hnn _ hu _ hu).1 (14 * 143165576)
        ⟨hInv.nonneg _ hu, hb14⟩
      intro v hv hne
      rcases hsm _ hu v hv with h | h
      · exact absurd h hne
      · unfold INF at h
        omega
    have hdist : rdI st.dist (selected st) ≠ INF → ∀ v, v < 15 →
        rdI (iteration adj st).dist v ≤ rdI st.dist v ∧
        (rdI (iteration adj st).dist v = rdI st.dist v ∨
          rdI (iteration adj st).dist v ≤ (n + 1) * 143165576) := by
      intro hb v hv
      obtain ⟨hu, hbound, hn15⟩ := hsel hb
      rw [iteration_dist adj st hInv.len_dist hInv.len_prev hu (hnn _ hu _ hu).1 (hstep hb) v hv]
      split_ifs with h
      · rcases hsm _ hu v hv with h1 | h1
        · exact absurd h1 h.1
        · unfold INF at h1
          omega
      · exact ⟨le_refl _, Or.inl rfl⟩
    refine ⟨?_, ?_, ?_⟩
    · intro i hi v hv
      by_cases hin : i = n
      · rw [hin, hst]
        exact fun hb => hstep hb v hv
      · exact hA i (by omega) v hv
    · intro v hv
      rw [hsucc]
      by_cases hb : rdI st.dist (selected st) = INF
      · rw [if_pos hb]
        rcases hB v hv with h | h
        · exact Or.inl h
        · right
          push_cast
          omega
      · rw [if_neg hb]
        obtain ⟨h1, h2⟩ := hdist hb v hv
        rcases h2 with h2 | h2
        · rw [h2]
          rcases hB v hv with h | h
          · exact Or.inl h
          · right
            push_cast
            omega
        · right
          push_cast
          exact h2
    · intro v hv
      rw [hsucc]
      by_cases hb : rdI st.dist (selected st) = INF
      · rw [if_pos hb]
        exact hC v hv
      · rw [if_neg hb, iteration_visited, rdB_set]
        obtain ⟨hu, hbound, hn15⟩ := hsel hb
        obtain ⟨h1, _⟩ := hdist hb v hv
        by_cases hvu : v = selected st
        · intro _
          rw [hvu] at h1 ⊢
          omega
        · have : ¬ (v = selected st ∧ selected st < st.visited.length) := fun h => hvu h.1
          rw [if_neg this]
          intro hvv
          have := hC v hv hvv
          omega

theorem noOverflow_of_smallEntries (adj : Matrix) (s : Nat) (hs : s < 15)
    (hsm : SmallEntries 15 adj) : NoOverflow adj s :=
  (small_run adj s hs hsm 15 (le_refl _)).1

/-! ## Walks -/

theorem isWalk_snoc (adj : Matrix) : ∀ (r : List Nat) (u e : Nat),
    IsWalk adj r → r.getLast? = some u → entry adj u e ≠ INF → e < 15 →
    IsWalk adj (r ++ [e]) ∧ walkCost adj (r ++ [e]) = walkCost adj r + entry adj u e
  | [], _, _, h, _, _, _ => False.elim h
  | [a], u, e, h, hl, hne, he => by
    have hau : a = u := by simpa using hl
    subst hau
    simp only [List.singleton_append, IsWalk, walkCost]
    exact ⟨⟨h, hne, he⟩, by omega⟩
  | a :: b :: rest, u, e, h, hl, hne, he => by
    have hl2 : (b :: rest).getLast? = some u := by
      simpa [List.getLast?_cons_cons] using hl
    obtain ⟨h1, h2, h3⟩ := h
    obtain ⟨ih1, ih2⟩ := isWalk_snoc adj (b :: rest) u e h3 hl2 hne he
    simp only [List.cons_append] at ih1 ih2 ⊢
    refine ⟨⟨h1, h2, ih1⟩, ?_⟩
    simp only [walkCost]
    rw [ih2]
    omega

theorem walkBack_stop (prev : List Int) (n : Nat) : walkBack prev n (-1) = some [] := by
  cases n <;> simp [walkBack]

/-! ## The walk along `prev` -/

/-- From a visited location the walk along `prev` ends within `t e + 1` pushes;
read backwards it is a simple walk from the start whose cost is `dist[e]`. -/
theorem walkBack_visited (adj : Matrix) (s : Nat) (st : State) (t : Nat → Nat) (k : Nat)
    (hs : s < 15) (hInv : Inv adj s st t k) :
    ∀ n e, e < 15 → rdB st.visited e = true → t e < n →
      ∃ r : List Nat, walkBack st.prev n (e : Int) = some (r.reverse.map Int.ofNat) ∧
        r.head? = some s ∧ r.getLast? = some e ∧ IsWalk adj r ∧
        walkCost adj r = rdI st.dist e ∧ r.Nodup ∧ r.length ≤ t e + 1 ∧
        ∀ x, x ∈ r → x < 15 ∧ rdB st.visited x = true ∧ t x ≤ t e := by
  intro n
  induction n with
  | zero =>
    intro e _ _ h
    omega
  | succ n ih =>
    intro e he hve hte
    have hne : ¬ ((e : Int) = -1) := by omega
    by_cases hes : e = s
    · subst hes
      refine ⟨[e], ?_, rfl, rfl, he, ?_, by simp, by simp, ?_⟩
      · simp only [walkBack, if_neg hne, Int.toNat_ofNat, hInv.src_prev, walkBack_stop]
        rfl
      · simp only [walkCost]
        exact hInv.src_dist.symm
      · intro x hx
        have : x = e := by simpa using hx
        subst this
        exact ⟨he, hve, le_refl _⟩
    · obtain ⟨u, hu, hpu, hvu, hw, hd, htu⟩ := hInv.pred e he hes (hInv.finite e he hve)
      have htue := htu hve
      obtain ⟨r, hr, hhead, hlast, hwalk, hcost, hnd, hlen, hall⟩ := ih u hu hvu (by omega)
      obtain ⟨hw2, hc2⟩ := isWalk_snoc adj r u e hwalk hlast hw he
      have hrne : r ≠ [] := by
        intro h
        rw [h] at hhead
        simp at hhead
      refine ⟨r ++ [e], ?_, ?_, by simp, hw2, ?_, ?_, ?_, ?_⟩
      · simp only [walkBack, if_neg hne, Int.toNat_ofNat, hpu, hr]
        simp
      · cases r with
        | nil => exact absurd rfl hrne
        | cons a rest => simpa using hhead
      · rw [hc2, hcost, hd]
      · rw [List.nodup_append]
        refine ⟨hnd, by simp, ?_⟩
        intro x hx hx2
        have hxe : x = e := by simpa using hx2
        have := (hall x hx).2.2
        rw [hxe] at this
        omega
      · simp only [List.length_append, List.length_singleton]
        omega
      · intro x hx
        rcases List.mem_append.mp hx with h | h
        · obtain ⟨h1, h2, h3⟩ := hall x h
          exact ⟨h1, h2, by omega⟩
        · have hxe : x = e := by simpa using h
          rw [hxe]
          exact ⟨he, hve, le_refl _⟩

theorem count_le_15 (adj : Matrix) (s : Nat) (st : State) (t : Nat → Nat) (k : Nat)
    (hInv : Inv adj s st t k) : k ≤ 15 := by
  have := List.count_le_length true st.visited
  rw [hInv.count, hInv.len_visited] at this
  exact this

theorem count_lt_15 (adj : Matrix) (s : Nat) (st : State) (t : Nat → Nat) (k : Nat)
    (hInv : Inv adj s st t k) (e : Nat) (he : e < 15) (hve : rdB st.visited e = false) :
    k < 15 := by
  have hle := count_le_15 adj s st t k hInv
  by_contra hge
  have := all_visited_of_count st.visited (by rw [hInv.count, hInv.len_visited]; omega) e
    (by rw [hInv.len_visited]; exact he)
  rw [this] at hve
  exact Bool.noConfusion hve

/-- From any location with a finite distance the walk along `prev` ends within
15 pushes; read backwards it is a simple walk from the start to that location
whose cost is the distance. -/
theorem walkBack_finite (adj : Matrix) (s : Nat) (st : State) (t : Nat → Nat) (k : Nat)
    (hs : s < 15) (hInv : Inv adj s st t k) (e : Nat) (he : e < 15)
    (hde : rdI st.dist e ≠ INF) (n : Nat) (hn : 15 ≤ n) :
    ∃ r : List Nat, walkBack st.prev n (e : Int) = some (r.reverse.map Int.ofNat) ∧
      r.head? = some s ∧ r.getLast? = some e ∧ IsWalk adj r ∧
      walkCost adj r = rdI st.dist e ∧ r.Nodup ∧ r.length ≤ 15 ∧ ∀ x, x ∈ r → x < 15 := by
  have hk := count_le_15 adj s st t k hInv
  by_cases hve : rdB st.visited e = true
  · have hte := hInv.stamp e he hve
    obtain ⟨r, h1, h2, h3, h4, h5, h6, h7, h8⟩ :=
      walkBack_visited adj s st t k hs hInv n e he hve (by omega)
    exact ⟨r, h1, h2, h3, h4, h5, h6, by omega, fun x hx => (h8 x hx).1⟩
  · have hve2 : rdB st.visited e = false := by simpa using hve
    have hk2 := count_lt_15 adj s st t k hInv e he hve2
    obtain ⟨m, rfl⟩ : ∃ m, n = m + 1 := ⟨n - 1, by omega⟩
    have hne : ¬ ((e : Int) = -1) := by omega
    by_cases hes : e = s
    · subst hes
      refine ⟨[e], ?_, rfl, rfl, he, ?_, by simp, by simp, ?_⟩
      · simp only [walkBack, if_neg hne, Int.toNat_ofNat, hInv.src_prev, walkBack_stop]
        rfl
      · simp only [walkCost]
        exact hInv.src_dist.symm
      · intro x hx
        have : x = e := by simpa using hx
        rw [this]
        exact he
    · obtain ⟨u, hu, hpu, hvu, hw, hd, _⟩ := hInv.pred e he hes hde
      have htu := hInv.stamp u hu hvu
      obtain ⟨r, hr, hhead, hlast, hwalk, hcost, hnd, hlen, hall⟩ :=
        walkBack_visited adj s st t k hs hInv m u hu hvu (by omega)
      obtain ⟨hw2, hc2⟩ := isWalk_snoc adj r u e hwalk hlast hw he
      refine ⟨r ++ [e], ?_, ?_, by simp, hw2, ?_, ?_, ?_, ?_⟩
      · simp only [walkBack, if_neg hne, Int.toNat_ofNat, hpu, hr]
        simp
      · cases r with
        | nil => simp at hhead
        | cons a rest => simpa using hhead
      · rw [hc2, hcost, hd]
      · rw [List.nodup_append]
        refine ⟨hnd, by simp, ?_⟩
        intro x hx hx2
        have hxe : x = e := by simpa using hx2
        have := (hall x hx).2.1
        rw [hxe, hve2] at this
        exact Bool.noConfusion this
      · simp only [List.length_append, List.length_singleton]
        omega
      · intro x hx
        rcases List.mem_append.mp hx with h | h
        · exact (hall x h).1
        · have hxe : x = e := by simpa using h
          rw [hxe]
          exact he

/-! ## Optimality -/

theorem isWalk_head_lt (adj : Matrix) : ∀ (p : List Nat) (x : Nat),
    IsWalk adj p → p.head? = some x → x < 15
  | [], _, h, _ => False.elim h
  | [a], x, h, hx => by
    have : a = x := by simpa using hx
    rw [← this]
    exact h
  | a :: b :: rest, x, h, hx => by
    have : a = x := by simpa using hx
    rw [← this]
    exact h.1

/-- When every visited location has relaxed its edges, every unvisited location
is at distance `INF`, and no relaxed sum reaches `INF`, a walk that starts at a
visited location ends at a visited location whose distance is at most the
distance of the first plus the cost of the walk. -/
theorem closed_le_walk (adj : Matrix) (s : Nat) (st : State) (t : Nat → Nat) (k : Nat)
    (hInv : Inv adj s st t k)
    (hfinal : ∀ v, v < 15 → rdB st.visited v = false → rdI st.dist v = INF)
    (hstrict : ∀ a, a < 15 → ∀ b, b < 15 → rdB st.visited a = true → entry adj a b ≠ INF →
      rdI st.dist a + entry adj a b < INF) :
    ∀ (p : List Nat) (x e : Nat), IsWalk adj p → p.head? = some x → p.getLast? = some e →
      rdB st.visited x = true →
      rdB st.visited e = true ∧ rdI st.dist e ≤ rdI st.dist x + walkCost adj p
  | [], _, _, h, _, _, _ => False.elim h
  | [a], x, e, _, hx, he, hvx => by
    have h1 : a = x := by simpa using hx
    have h2 : a = e := by simpa using he
    rw [← h2, h1]
    simp only [walkCost]
    exact ⟨hvx, by omega⟩
  | a :: b :: rest, x, e, h, hx, he, hvx => by
    have h1 : a = x := by simpa using hx
    subst h1
    obtain ⟨ha, hab, hrest⟩ := h
    have hb : b < 15 := isWalk_head_lt adj (b :: rest) b hrest rfl
    have hcl := hInv.closed a ha b hb hvx hab
    have hst := hstrict a ha b hb hvx hab
    have hvb : rdB st.visited b = true := by
      by_contra hv
      have := hfinal b hb (by simpa using hv)
      omega
    have he2 : (b :: rest).getLast? = some e := by
      simpa [List.getLast?_cons_cons] using he
    obtain ⟨hve, hle⟩ := closed_le_walk adj s st t k hInv hfinal hstrict
      (b :: rest) b e hrest rfl he2 hvb
    refine ⟨hve, ?_⟩
    simp only [walkCost]
    omega

/-! ## The search as a whole -/

theorem search_walkBack (adj : Matrix) (s e : Nat) (hs : s < 15) (he : e < 15)
    (hnn : NonNegEntries adj) (hno : NoOverflow adj s)
    (hde : rdI (search adj s).dist e ≠ INF) (n : Nat) (hn : 15 ≤ n) :
    ∃ r : List Nat, walkBack (search adj s).prev n (e : Int) = some (r.reverse.map Int.ofNat) ∧
      r.head? = some s ∧ r.getLast? = some e ∧ IsWalk adj r ∧
      walkCost adj r = rdI (search adj s).dist e ∧ r.Nodup ∧ r.length ≤ 15 ∧
      ∀ x, x ∈ r → x < 15 := by
  obtain ⟨t, k, hInv, _⟩ := search_inv adj s hs hnn hno
  exact walkBack_finite adj s _ t k hs hInv e he hde n hn

theorem search_source (adj : Matrix) (s : Nat) (hs : s < 15)
    (hnn : NonNegEntries adj) (hno : NoOverflow adj s) :
    rdI (search adj s).dist s = 0 ∧ rdI (search adj s).prev s = -1 := by
  obtain ⟨t, k, hInv, _⟩ := search_inv adj s hs hnn hno
  exact ⟨hInv.src_dist, hInv.src_prev⟩

theorem walkBack_mono (prev : List Int) : ∀ (n : Nat) (a : Int) (l : List Int),
    walkBack prev n a = some l → ∀ j, walkBack prev (n + j) a = some l
  | 0, a, l, h, j => by
    by_cases ha : a = -1
    · rw [ha] at h ⊢
      rw [walkBack_stop] at h ⊢
      exact h
    · simp [walkBack, ha] at h
  | n + 1, a, l, h, j => by
    by_cases ha : a = -1
    · rw [ha] at h ⊢
      rw [walkBack_stop] at h ⊢
      exact h
    · have hj : n + 1 + j = (n + j) + 1 := by omega
      rw [hj]
      simp only [walkBack, if_neg ha] at h ⊢
      cases hw : walkBack prev n (rdI prev a.toNat) with
      | none =>
        rw [hw] at h
        simp at h
      | some rest =>
        rw [hw] at h
        rw [walkBack_mono prev n _ rest hw j]
        exact h

/-- The search finds a distance no larger than the cost of any directed path,
when no sum of 15 entries reaches `INT_MAX`. -/
theorem search_optimal (adj : Matrix) (s e : Nat) (hs : s < 15) (he : e < 15)
    (hsm : SmallEntries 15 adj) (p : List Nat) (hp : Connects adj s e p) :
    rdI (search adj s).dist e ≠ INF ∧ rdI (search adj s).dist e ≤ walkCost adj p := by
  have hnn := smallEntries_nonNeg adj hsm
  have hno := noOverflow_of_smallEntries adj s hs hsm
  obtain ⟨t, k, hInv, hfinal⟩ := search_inv adj s hs hnn hno
  have hbound := (small_run adj s hs hsm 15 (le_refl _)).2.2
  have hstrict : ∀ a, a < 15 → ∀ b, b < 15 → rdB (search adj s).visited a = true →
      entry adj a b ≠ INF → rdI (search adj s).dist a + entry adj a b < INF := by
    intro a ha b hb hva hab
    have h1 := hbound a ha hva
    rcases hsm a ha b hb with h | h
    · exact absurd h hab
    · unfold INF at h ⊢
      have h2 : rdI (search adj s).dist a ≤ 14 * 143165576 := h1
      omega
  have hvs : rdB (search adj s).visited s = true := by
    by_contra hv
    have := hfinal s hs (by simpa using hv)
    rw [hInv.src_dist] at this
    unfold INF at this
    omega
  obtain ⟨hwalk, hhead, hlast⟩ := hp
  obtain ⟨hve, hle⟩ := closed_le_walk adj s _ t k hInv hfinal hstrict p s e hwalk hhead hlast hvs
  rw [hInv.src_dist] at hle
  exact ⟨hInv.finite e he hve, by omega⟩

/-! ## Only reachable locations get a distance (no hypothesis on the entries) -/

theorem selectFrom_range (dist : List Int) (visited : List Bool) (n : Nat) :
    selectFrom dist visited n = -1 ∨ ∃ u : Nat, u < n ∧ selectFrom dist visited n = (u : Int) := by
  induction n with
  | zero => exact Or.inl rfl
  | succ n ih =>
    simp only [selectFrom]
    split_ifs
    · exact Or.inr ⟨n, by omega, rfl⟩
    · rcases ih with h | ⟨u, hu, h⟩
      · exact Or.inl h
      · exact Or.inr ⟨u, by omega, h⟩

theorem selected_lt (st : State) : selected st < 15 := by
  unfold selected
  rcases selectFrom_range st.dist st.visited 15 with h | ⟨u, hu, h⟩
  · rw [h]
    decide
  · rw [h]
    simpa using hu

theorem relaxFrom_reach (adj : Matrix) (s u : Nat) (hu : ∃ p, Connects adj s u p) (m : Nat)
    (hm : m ≤ 15) (st : State)
    (hG : ∀ v, v < 15 → rdI st.dist v ≠ INF → ∃ p, Connects adj s v p) :
    ∀ v, v < 15 → rdI (relaxFrom adj u m st).dist v ≠ INF → ∃ p, Connects adj s v p := by
  induction m with
  | zero => exact hG
  | succ m ih =>
    intro v hv
    simp only [relaxFrom]
    rw [relaxOne_dist]
    split_ifs with h
    · intro _
      obtain ⟨p, hwalk, hhead, hlast⟩ := hu
      obtain ⟨hc, hvm, _⟩ := h
      rw [← hvm] at hc
      obtain ⟨hw2, _⟩ := isWalk_snoc adj p u v hwalk hlast hc.1 hv
      refine ⟨p ++ [v], hw2, ?_, by simp⟩
      cases p with
      | nil => exact False.elim hwalk
      | cons a rest => simpa using hhead
    · exact ih (by omega) v hv

theorem mainLoop_reach (adj : Matrix) (s : Nat) : ∀ (n : Nat) (st : State),
    (∀ v, v < 15 → rdI st.dist v ≠ INF → ∃ p, Connects adj s v p) →
    ∀ v, v < 15 → rdI (mainLoop adj n st).dist v ≠ INF → ∃ p, Connects adj s v p
  | 0, _, hG => hG
  | n + 1, st, hG => by
    simp only [mainLoop]
    split_ifs with hb
    · exact hG
    · apply mainLoop_reach adj s n
      exact relaxFrom_reach adj s (selected st) (hG _ (selected_lt st) hb) 15 (le_refl _)
        (markVisited st (selected st)) hG

/-- A location without a directed path from the start keeps the distance `INF`,
whatever the entries of the matrix are. -/
theorem search_unreached (adj : Matrix) (s e : Nat) (he : e < 15)
    (h : ¬ ∃ p, Connects adj s e p) : rdI (search adj s).dist e = INF := by
  by_contra hne
  apply h
  apply mainLoop_reach adj s 15 (initState s) _ e he hne
  intro v hv hdv
  unfold initState at hdv
  simp only [rdI_set, List.length_replicate] at hdv
  split_ifs at hdv with hc
  · rw [hc.1]
    exact ⟨[s], hc.2, rfl, rfl⟩
  · exact absurd (rdI_replicate 15 INF v hv) hdv

/-! ## The code's relaxation against the spec's variant -/

theorem relaxFrom_dist_self (adj : Matrix) (u : Nat) (st : State)
    (hd : st.dist.length = 15) (hp : st.prev.length = 15) (hu : u < 15)
    (hself : 0 ≤ entry adj u u) (m : Nat) (hm : m ≤ 15)
    (hno : ∀ v, v < m → entry adj u v ≠ INF →
      InIntRange (rdI (relaxFrom adj u v st).dist u + entry adj u v)) :
    rdI (relaxFrom adj u m st).dist u = rdI st.dist u := by
  rw [(relaxFrom_spec adj u st hd hp hu hself m hm hno u hu).1]
  split_ifs with h
  · omega
  · rfl

/-- During the relaxation loop of an iteration, whatever `m` values of `v` have
been handled, the entries of `dist` and `prev` of the visited locations are
those from before the loop. -/
theorem relax_frozen (adj : Matrix) (s : Nat) (st : State) (t : Nat → Nat) (k : Nat)
    (hnn : NonNegEntries adj) (hInv : Inv adj s st t k) (hk : k < 15)
    (hno : ∀ v, v < 15 → entry adj (selected st) v ≠ INF →
      InIntRange (rdI (relaxFrom adj (selected st) v (markVisited st (selected st))).dist
        (selected st) + entry adj (selected st) v))
    (m : Nat) (hm : m ≤ 15) (v : Nat) (hv : v < 15)
    (hvv : rdB (markVisited st (selected st)).visited v = true) :
    rdI (relaxFrom adj (selected st) m (markVisited st (selected st))).dist v = rdI st.dist v ∧
    rdI (relaxFrom adj (selected st) m (markVisited st (selected st))).prev v = rdI st.prev v := by
  obtain ⟨hu, hvu, hmin, _⟩ :=
    selected_spec st hInv.len_visited (by rw [hInv.count]; exact hk)
  have hspec := relaxFrom_spec adj (selected st) (markVisited st (selected st))
    hInv.len_dist hInv.len_prev hu (hnn _ hu _ hu).1 m hm (fun x hx => hno x (by omega)) v hv
  have hle : rdI st.dist v ≤ rdI st.dist (selected st) := by
    by_cases hvu2 : v = selected st
    · rw [hvu2]
    · have : rdB st.visited v = true := by
        have h := hvv
        simp only [markVisited, rdB_set] at h
        have hn : ¬ (v = selected st ∧ selected st < st.visited.length) := fun h => hvu2 h.1
        rw [if_neg hn] at h
        exact h
      exact hInv.order v hv _ hu this hvu
  have hw := (hnn _ hu v hv).1
  have hc : ¬ (v < m ∧ entry adj (selected st) v ≠ INF ∧
      rdI (markVisited st (selected st)).dist (selected st) + entry adj (selected st) v
        < rdI (markVisited st (selected st)).dist v) := by
    rintro ⟨_, _, h3⟩
    have h4 : rdI st.dist (selected st) + entry adj (selected st) v < rdI st.dist v := h3
    omega
  rw [hspec.1, hspec.2, if_neg hc, if_neg hc]
  exact ⟨rfl, rfl⟩

theorem relaxOneUnvisited_visited (adj : Matrix) (u : Nat) (st : State) (v : Nat) :
    (relaxOneUnvisited adj u st v).visited = st.visited := by
  unfold relaxOneUnvisited
  split <;> rfl

theorem relaxOneUnvisited_dist_length (adj : Matrix) (u : Nat) (st : State) (v : Nat) :
    (relaxOneUnvisited adj u st v).dist.length = st.dist.length := by
  unfold relaxOneUnvisited
  split <;> simp

theorem relaxOneUnvisited_prev_length (adj : Matrix) (u : Nat) (st : State) (v : Nat) :
    (relaxOneUnvisited adj u st v).prev.length = st.prev.length := by
  unfold relaxOneUnvisited
  split <;> simp

theorem relaxFromUnvisited_visited (adj : Matrix) (u : Nat) (m : Nat) (st : State) :
    (relaxFromUnvisited adj u m st).visited = st.visited := by
  induction m with
  | zero => rfl
  | succ m ih => simp [relaxFromUnvisited, relaxOneUnvisited_visited, ih]

theorem relaxFromUnvisited_dist_length (adj : Matrix) (u : Nat) (m : Nat) (st : State) :
    (relaxFromUnvisited adj u m st).dist.length = st.dist.length := by
  induction m with
  | zero => rfl
  | succ m ih => simp [relaxFromUnvisited, relaxOneUnvisited_dist_length, ih]

theorem relaxFromUnvisited_prev_length (adj : Matrix) (u : Nat) (m : Nat) (st : State) :
    (relaxFromUnvisited adj u m st).prev.length = st.prev.length := by
  induction m with
  | zero => rfl
  | succ m ih => simp [relaxFromUnvisited, relaxOneUnvisited_prev_length, ih]

theorem relaxOneUnvisited_dist (adj : Matrix) (u : Nat) (st : State) (v x : Nat) :
    rdI (relaxOneUnvisited adj u st v).dist x =
      if (rdB st.visited v = false ∧ entry adj u v ≠ INF ∧
            wrap32 (rdI st.dist u + entry adj u v) < rdI st.dist v) ∧
          x = v ∧ v < st.dist.length
      then wrap32 (rdI st.dist u + entry adj u v) else rdI st.dist x := by
  unfold relaxOneUnvisited
  by_cases hc : rdB st.visited v = false ∧ entry adj u v ≠ INF ∧
      wrap32 (rdI st.dist u + entry adj u v) < rdI st.dist v
  · rw [if_pos hc]
    simp only [rdI_set, hc, true_and, ne_eq, not_false_eq_true, and_self]
  · rw [if_neg hc]
    simp only [hc, false_and, if_false]

theorem relaxOneUnvisited_prev (adj : Matrix) (u : Nat) (st : State) (v x : Nat) :
    rdI (relaxOneUnvisited adj u st v).prev x =
      if (rdB st.visited v = false ∧ entry adj u v ≠ INF ∧
            wrap32 (rdI st.dist u + entry adj u v) < rdI st.dist v) ∧
          x = v ∧ v < st.prev.length
      then (u : Int) else rdI st.prev x := by
  unfold relaxOneUnvisited
  by_cases hc : rdB st.visited v = false ∧ entry adj u v ≠ INF ∧
      wrap32 (rdI st.dist u + entry adj u v) < rdI st.dist v
  · rw [if_pos hc]
    simp only [rdI_set, hc, true_and, ne_eq, not_false_eq_true, and_self]
  · rw [if_neg hc]
    simp only [hc, false_and, if_false]

theorem state_ext (a b : State) (h1 : a.dist = b.dist) (h2 : a.visited = b.visited)
    (h3 : a.prev = b.prev) : a = b := by
  cases a
  cases b
  simp only [State.mk.injEq]
  exact ⟨h1, h2, h3⟩

/-- Relaxing from `u` after marking it, as the code does, and marking `u` after
relaxing its unvisited neighbours, as the spec has it, give the same arrays. -/
theorem relax_variants_eq (adj : Matrix) (u : Nat) (st : State)
    (hd : st.dist.length = 15) (hp : st.prev.length = 15) (hu : u < 15)
    (hw : ∀ x, x < 15 → 0 ≤ entry adj u x)
    (hord : ∀ x, x < 15 → rdB st.visited x = true → rdI st.dist x ≤ rdI st.dist u)
    (m : Nat) (hm : m ≤ 15)
    (hno : ∀ v, v < m → entry adj u v ≠ INF →
      InIntRange (rdI (relaxFrom adj u v (markVisited st u)).dist u + entry adj u v)) :
    markVisited (relaxFromUnvisited adj u m st) u = relaxFrom adj u m (markVisited st u) := by
  have hself := hw u hu
  have hA := relaxFrom_spec adj u (markVisited st u) hd hp hu hself m hm hno
  have hB : ∀ x, x < 15 →
      rdI (relaxFromUnvisited adj u m st).dist x =
        (if x < m ∧ rdB st.visited x = false ∧ entry adj u x ≠ INF ∧
            rdI st.dist u + entry adj u x < rdI st.dist x
          then rdI st.dist u + entry adj u x else rdI st.dist x) ∧
      rdI (relaxFromUnvisited adj u m st).prev x =
        (if x < m ∧ rdB st.visited x = false ∧ entry adj u x ≠ INF ∧
            rdI st.dist u + entry adj u x < rdI st.dist x
          then (u : Int) else rdI st.prev x) := by
    clear hA
    induction m with
    | zero =>
      intro x _
      simp [relaxFromUnvisited]
    | succ m ih =>
      have ihm := ih (by omega) (fun v hv => hno v (by omega))
      have hdu : rdI (relaxFromUnvisited adj u m st).dist u = rdI st.dist u := by
        rw [(ihm u hu).1]
        split_ifs with h
        · omega
        · rfl
      have hdm : rdI (relaxFromUnvisited adj u m st).dist m = rdI st.dist m := by
        rw [(ihm m (by omega)).1]
        split_ifs with h
        · omega
        · rfl
      have hlen1 : m < (relaxFromUnvisited adj u m st).dist.length := by
        rw [relaxFromUnvisited_dist_length]
        omega
      have hlen2 : m < (relaxFromUnvisited adj u m st).prev.length := by
        rw [relaxFromUnvisited_prev_length]
        omega
      have hrange : entry adj u m ≠ INF →
          wrap32 (rdI st.dist u + entry adj u m) = rdI st.dist u + entry adj u m := by
        intro hne
        have h := hno m (by omega) hne
        rw [relaxFrom_dist_self adj u (markVisited st u) hd hp hu hself m (by omega)
          (fun x hx => hno x (by omega))] at h
        exact wrap32_of_inIntRange h
      intro x hx
      simp only [relaxFromUnvisited]
      rw [relaxOneUnvisited_dist, relaxOneUnvisited_prev, hdu, hdm, (ihm x hx).1, (ihm x hx).2,
        relaxFromUnvisited_visited]
      by_cases hne : entry adj u m ≠ INF
      · rw [hrange hne]
        by_cases hxm : x = m
        · subst hxm
          simp only [hne, hlen1, hlen2, lt_self_iff_false, false_and, if_false, true_and,
            and_true, Nat.lt_succ_self, ne_eq, not_false_eq_true]
        · have h1 : (x < m + 1) = (x < m) := by
            apply propext
            omega
          simp only [hxm, false_and, and_false, if_false, h1, and_self]
      · have hxm : x = m → entry adj u x = INF := by
          intro h
          subst h
          simpa using hne
        have h1 : (x < m + 1 ∧ rdB st.visited x = false ∧ entry adj u x ≠ INF ∧
              rdI st.dist u + entry adj u x < rdI st.dist x)
            = (x < m ∧ rdB st.visited x = false ∧ entry adj u x ≠ INF ∧
              rdI st.dist u + entry adj u x < rdI st.dist x) := by
          apply propext
          constructor
          · rintro ⟨a, b, c, d⟩
            refine ⟨?_, b, c, d⟩
            by_contra hlt
            exact c (hxm (by omega))
          · rintro ⟨a, b, c, d⟩
            exact ⟨by omega, b, c, d⟩
        simp only [hne, false_and, and_false, if_false, h1, and_self]
  have hcond : ∀ x, x < 15 →
      ((x < m ∧ entry adj u x ≠ INF ∧ rdI st.dist u + entry adj u x < rdI st.dist x) ↔
      (x < m ∧ rdB st.visited x = false ∧ entry adj u x ≠ INF ∧
        rdI st.dist u + entry adj u x < rdI st.dist x)) := by
    intro x hx
    constructor
    · rintro ⟨a, b, c⟩
      refine ⟨a, ?_, b, c⟩
      by_contra hv
      have := hord x hx (by simpa using hv)
      have := hw x hx
      omega
    · rintro ⟨a, _, b, c⟩
      exact ⟨a, b, c⟩
  have hld : (relaxFrom adj u m (markVisited st u)).dist.length = 15 := by
    rw [relaxFrom_dist_length]
    exact hd
  have hlp : (relaxFrom adj u m (markVisited st u)).prev.length = 15 := by
    rw [relaxFrom_prev_length]
    exact hp
  have hld2 : (relaxFromUnvisited adj u m st).dist.length = 15 := by
    rw [relaxFromUnvisited_dist_length]
    exact hd
  have hlp2 : (relaxFromUnvisited adj u m st).prev.length = 15 := by
    rw [relaxFromUnvisited_prev_length]
    exact hp
  have hvis : (relaxFrom adj u m (markVisited st u)).visited = st.visited.set u true := by
    rw [relaxFrom_visited]
    rfl
  have hvis2 : (relaxFromUnvisited adj u m st).visited = st.visited :=
    relaxFromUnvisited_visited adj u m st
  generalize relaxFrom adj u m (markVisited st u) = sa at hA hld hlp hvis ⊢
  generalize relaxFromUnvisited adj u m st = sb at hB hld2 hlp2 hvis2 ⊢
  apply state_ext
  · apply list_eq_of_rdI
    · show sb.dist.length = sa.dist.length
      rw [hld, hld2]
    · intro x hx
      have hx15 : x < 15 := by
        have h : x < sb.dist.length := hx
        omega
      have h1 : rdI sa.dist x = _ := (hA x hx15).1
      have h2 := (hB x hx15).1
      show rdI sb.dist x = rdI sa.dist x
      rw [h1, h2]
      by_cases hc : x < m ∧ entry adj u x ≠ INF ∧ rdI st.dist u + entry adj u x < rdI st.dist x
      · rw [if_pos ((hcond x hx15).mp hc)]
        exact (if_pos hc).symm
      · rw [if_neg (fun h => hc ((hcond x hx15).mpr h))]
        exact (if_neg hc).symm
  · show sb.visited.set u true = sa.visited
    rw [hvis, hvis2]
  · apply list_eq_of_rdI
    · show sb.prev.length = sa.prev.length
      rw [hlp, hlp2]
    · intro x hx
      have hx15 : x < 15 := by
        have h : x < sb.prev.length := hx
        omega
      have h1 : rdI sa.prev x = _ := (hA x hx15).2
      have h2 := (hB x hx15).2
      show rdI sb.prev x = rdI sa.prev x
      rw [h1, h2]
      by_cases hc : x < m ∧ entry adj u x ≠ INF ∧ rdI st.dist u + entry adj u x < rdI st.dist x
      · rw [if_pos ((hcond x hx15).mp hc)]
        exact (if_pos hc).symm
      · rw [if_neg (fun h => hc ((hcond x hx15).mpr h))]
        exact (if_neg hc).symm

/-- One iteration of the code and one iteration of the spec's variant produce
the same arrays. -/
theorem iterationUnvisited_eq (adj : Matrix) (s : Nat) (st : State) (t : Nat → Nat) (k : Nat)
    (hnn : NonNegEntries adj) (hInv : Inv adj s st t k) (hk : k < 15)
    (hno : ∀ v, v < 15 → entry adj (selected st) v ≠ INF →
      InIntRange (rdI (relaxFrom adj (selected st) v (markVisited st (selected st))).dist
        (selected st) + entry adj (selected st) v)) :
    iterationUnvisited adj st = iteration adj st := by
  obtain ⟨hu, hvu, hmin, _⟩ :=
    selected_spec st hInv.len_visited (by rw [hInv.count]; exact hk)
  exact relax_variants_eq adj (selected st) st hInv.len_dist hInv.len_prev hu
    (fun x hx => (hnn _ hu x hx).1)
    (fun x hx hvx => hInv.order x hx _ hu hvx hvu) 15 (le_refl _) hno

theorem mainLoopUnvisited_succ (adj : Matrix) (n : Nat) (st : State) :
    mainLoopUnvisited adj (n + 1) st =
      if rdI (mainLoopUnvisited adj n st).dist (selected (mainLoopUnvisited adj n st)) = INF
      then mainLoopUnvisited adj n st else iterationUnvisited adj (mainLoopUnvisited adj n st) := by
  induction n generalizing st with
  | zero => simp [mainLoopUnvisited]
  | succ n ih =>
    by_cases hb : rdI st.dist (selected st) = INF
    · have h1 : mainLoopUnvisited adj (n + 1) st = st := by simp [mainLoopUnvisited, hb]
      have h2 : mainLoopUnvisited adj (n + 1 + 1) st = st := by
        rw [mainLoopUnvisited]
        simp [hb]
      rw [h2, h1, if_pos hb]
    · have h1 : mainLoopUnvisited adj (n + 1) st
          = mainLoopUnvisited adj n (iterationUnvisited adj st) := by
        rw [mainLoopUnvisited]
        simp [hb]
      have h2 : mainLoopUnvisited adj (n + 1 + 1) st
          = mainLoopUnvisited adj (n + 1) (iterationUnvisited adj st) := by
        rw [mainLoopUnvisited]
        simp [hb]
      rw [h2, h1, ih]

theorem mainLoopUnvisited_eq (adj : Matrix) (s : Nat) (hs : s < 15) (hnn : NonNegEntries adj)
    (hno : NoOverflow adj s) (n : Nat) (hn : n ≤ 15) :
    mainLoopUnvisited adj n (initState s) = mainLoop adj n (initState s) := by
  induction n with
  | zero => rfl
  | succ n ih =>
    rw [mainLoopUnvisited_succ, mainLoop_succ, ih (by omega)]
    obtain ⟨t, k, hInv, hk⟩ := mainLoop_inv adj s hs hnn n (by omega)
      (fun i hi v hv => hno i (by omega) v hv)
    by_cases hb : rdI (mainLoop adj n (initState s)).dist
        (selected (mainLoop adj n (initState s))) = INF
    · rw [if_pos hb, if_pos hb]
    · rw [if_neg hb, if_neg hb]
      have hkn : k = n := hk.resolve_right hb
      exact iterationUnvisited_eq adj s _ t k hnn hInv (by omega)
        (fun v hv hne => hno n (by omega) v hv hb hne)

/-! ## From the search to `calculatePath` -/

theorem chooseMatrix_text (nav : Navigator) (m : Mode) :
    chooseMatrix nav m.text = nav.matrix m := by
  cases m
  · rfl
  · have h : ¬ ("自行车" = "步行") := by decide
    simp only [chooseMatrix, Mode.text, Navigator.matrix, if_neg h, if_true]
  · have h1 : ¬ ("校车" = "步行") := by decide
    have h2 : ¬ ("校车" = "自行车") := by decide
    simp only [chooseMatrix, Mode.text, Navigator.matrix, if_neg h1, if_neg h2, if_true]

theorem calculatePath_typed (fuel : Nat) (nav : Navigator) (m : Mode) (s e : Nat)
    (hs : s < 15) (he : e < 15) :
    calculatePath fuel nav m.text (typed ((s : Int) + 1)) (typed ((e : Int) + 1)) =
      (findRoute fuel (nav.matrix m) s e).map (present nav) := by
  have h1 : wrap32 ((s : Int) + 1 - 1) = (s : Int) := by
    unfold wrap32
    omega
  have h2 : wrap32 ((e : Int) + 1 - 1) = (e : Int) := by
    unfold wrap32
    omega
  have h3 : ¬ ((s : Int) < 0) := by omega
  have h4 : ¬ ((s : Int) ≥ 15) := by omega
  have h5 : ¬ ((e : Int) < 0) := by omega
  have h6 : ¬ ((e : Int) ≥ 15) := by omega
  unfold calculatePath typed
  simp only [h1, h2, chooseMatrix_text, Int.toNat_ofNat]
  simp [h3, h4, h5, h6]

theorem present_inj (nav : Navigator) (o1 o2 : Outcome) (h : present nav o1 = present nav o2) :
    o1 = o2 := by
  have hp := congrArg Navigator.pathListWidget h
  cases o1 <;> cases o2 <;> simp [present] at hp ⊢
  exact hp

theorem findRoute_of_unreached (fuel : Nat) (adj : Matrix) (s e : Nat)
    (h : rdI (search adj s).dist e = INF) : findRoute fuel adj s e = some Outcome.unreachable := by
  unfold findRoute
  simp only [h, if_true]

theorem findRoute_of_reached (fuel : Nat) (adj : Matrix) (s e : Nat) (hs : s < 15) (he : e < 15)
    (hnn : NonNegEntries adj) (hno : NoOverflow adj s)
    (hde : rdI (search adj s).dist e ≠ INF) (hfuel : 15 ≤ fuel) :
    ∃ r : List Nat,
      findRoute fuel adj s e =
        some (Outcome.route (r.map Int.ofNat) (rdI (search adj s).dist e)) ∧
      Connects adj s e r ∧ walkCost adj r = rdI (search adj s).dist e ∧
      r.Nodup ∧ r.length ≤ 15 := by
  obtain ⟨r, h1, h2, h3, h4, h5, h6, h7, _⟩ :=
    search_walkBack adj s e hs he hnn hno hde fuel hfuel
  refine ⟨r, ?_, ⟨h4, h2, h3⟩, h5, h6, h7⟩
  unfold findRoute
  simp only [if_neg hde, h1, Option.map_some']
  simp [List.map_reverse]

/-- Whatever the fuel, a route that is reported is the walk the invariant
describes. -/
theorem findRoute_sound (fuel : Nat) (adj : Matrix) (s e : Nat) (hs : s < 15) (he : e < 15)
    (hnn : NonNegEntries adj) (hno : NoOverflow adj s) (path : List Int) (d : Int)
    (h : findRoute fuel adj s e = some (Outcome.route path d)) :
    ∃ r : List Nat, path = r.map Int.ofNat ∧ Connects adj s e r ∧
      d = rdI (search adj s).dist e ∧ d = walkCost adj r ∧ r.Nodup ∧ r.length ≤ 15 := by
  by_cases hde : rdI (search adj s).dist e = INF
  · rw [findRoute_of_unreached fuel adj s e hde] at h
    simp at h
  · obtain ⟨r, h1, h2, h3, h4, h5⟩ :=
      findRoute_of_reached (fuel + 15) adj s e hs he hnn hno hde (by omega)
    unfold findRoute at h h1
    simp only [if_neg hde] at h h1
    cases hw : walkBack (search adj s).prev fuel (e : Int) with
    | none =>
      rw [hw] at h
      simp at h
    | some pushed =>
      rw [walkBack_mono _ fuel _ pushed hw 15] at h1
      rw [hw] at h
      simp only [Option.map_some', Option.some.injEq, Outcome.route.injEq] at h h1
      refine ⟨r, ?_, h2, h.2.symm, ?_, h4, h5⟩
      · rw [← h.1, h1.1]
      · rw [← h.2, h3]

/-! ## The chain: fourteen entries that do not reach `INT_MAX`, fifteen that do -/

theorem chain_search :
    search (chainMatrix 153391689) 0 =
      { dist := [-1994091961, 153391689, 306783378, 460175067, 613566756, 766958445, 920350134,
          1073741823, 1227133512, 1380525201, 1533916890, 1687308579, 1840700268, 1994091957,
          2147483646]
        visited := [true, true, true, true, true, true, true, true, true, true, true, true,
          true, true, true]
        prev := [14, 0, 1, 2, 3, 4, 5, 6, 7, 8, 9, 10, 11, 12, 13] } := by
  decide

theorem chain_walkBack (fuel : Nat) : ∀ a : Nat, a < 15 →
    walkBack [14, 0, 1, 2, 3, 4, 5, 6, 7, 8, 9, 10, 11, 12, 13] fuel (a : Int) = none := by
  induction fuel with
  | zero =>
    intro a ha
    have : ¬ ((a : Int) = -1) := by omega
    simp [walkBack, this]
  | succ n ih =>
    intro a ha
    have hne : ¬ ((a : Int) = -1) := by omega
    have hstep : ∃ b : Nat, b < 15 ∧
        rdI [14, 0, 1, 2, 3, 4, 5, 6, 7, 8, 9, 10, 11, 12, 13] a = (b : Int) := by
      interval_cases a
      · exact ⟨14, by omega, rfl⟩
      · exact ⟨0, by omega, rfl⟩
      · exact ⟨1, by omega, rfl⟩
      · exact ⟨2, by omega, rfl⟩
      · exact ⟨3, by omega, rfl⟩
      · exact ⟨4, by omega, rfl⟩
      · exact ⟨5, by omega, rfl⟩
      · exact ⟨6, by omega, rfl⟩
      · exact ⟨7, by omega, rfl⟩
      · exact ⟨8, by omega, rfl⟩
      · exact ⟨9, by omega, rfl⟩
      · exact ⟨10, by omega, rfl⟩
      · exact ⟨11, by omega, rfl⟩
      · exact ⟨12, by omega, rfl⟩
      · exact ⟨13, by omega, rfl⟩
    obtain ⟨b, hb, hrd⟩ := hstep
    simp only [walkBack, if_neg hne, Int.toNat_ofNat, hrd, ih b hb, Option.map_none']

theorem chain_no_route (fuel : Nat) :
    calculatePath fuel chainNavigator Mode.walk.text (typed 1) (typed 1) = none := by
  have h := calculatePath_typed fuel chainNavigator Mode.walk 0 0 (by omega) (by omega)
  have hd : rdI (search (chainMatrix 153391689) 0).dist 0 ≠ INF := by
    rw [chain_search]
    decide
  have hf : findRoute fuel (chainMatrix 153391689) 0 0 = none := by
    unfold findRoute
    simp only [if_neg hd]
    rw [chain_search]
    have := chain_walkBack fuel 0 (by omega)
    simp only [this, Option.map_none']
  have hm : chainNavigator.matrix Mode.walk = chainMatrix 153391689 := rfl
  rw [hm, hf] at h
  exact h

/-! ## The reference data -/

theorem reference_small (nav : Navigator) (m : Mode) :
    SmallEntries 15 ((createEdges nav).matrix m) := by
  cases m
  · show SmallEntries 15 walkAdjMatrix
    decide
  · show SmallEntries 15 bikeAdjMatrix
    decide
  · show SmallEntries 15 busAdjMatrix
    decide

theorem reference_shape (nav : Navigator) (m : Mode) :
    Is15x15 ((createEdges nav).matrix m) := by
  cases m
  · show Is15x15 walkAdjMatrix
    decide
  · show Is15x15 bikeAdjMatrix
    decide
  · show Is15x15 busAdjMatrix
    decide

/-! ## The claims -/

/-- C1, as stated, fails: on the chain `0 -> 1 -> ... -> 14 -> 0` of weight
153391689 no sum of 14 entries reaches `INT_MAX`, location 0 is connected to
itself by the empty path of cost 0, yet the relaxation of the fifteenth edge
overflows, the search ends with `dist[0] = -1994091961`, and the walk along
`prev` never meets `-1`, so no route is reported with any fuel. -/
theorem C1_counterexample :
    Is15x15 (chainNavigator.matrix Mode.walk) ∧
    SmallEntries 14 (chainNavigator.matrix Mode.walk) ∧
    Connects (chainNavigator.matrix Mode.walk) 0 0 [0] ∧
    walkCost (chainNavigator.matrix Mode.walk) [0] = 0 ∧
    ¬ NoOverflow (chainNavigator.matrix Mode.walk) 0 ∧
    rdI (search (chainNavigator.matrix Mode.walk) 0).dist 0 = -1994091961 ∧
    (∀ fuel, calculatePath fuel chainNavigator Mode.walk.text (typed 1) (typed 1) = none) := by
  refine ⟨by decide, by decide, by decide, by decide, by decide, ?_, chain_no_route⟩
  show rdI (search (chainMatrix 153391689) 0).dist 0 = -1994091961
  rw [chain_search]
  rfl

/-- C1 (amended): for every 15x15 matrix whose entries are `INF` or non-negative
integers of which no sum of 15 reaches `INT_MAX`, and every start and end in
`0..14`, if some directed path of non-`INF` entries leads from start to end then
`calculatePath` reports a route, and the reported distance `dist[end]` is the
cost of a directed path from start to end and is at most the cost of every such
path; the walk, bike and bus matrices of `createEdges` are such matrices. -/
theorem C1_shortest_route (nav : Navigator) (m : Mode) (s e : Nat) (hs : s < 15) (he : e < 15)
    (_hshape : Is15x15 (nav.matrix m)) (hsm : SmallEntries 15 (nav.matrix m))
    (hreach : ∃ p, Connects (nav.matrix m) s e p) (fuel : Nat) (hfuel : 15 ≤ fuel) :
    (∃ r : List Nat,
      calculatePath fuel nav m.text (typed ((s : Int) + 1)) (typed ((e : Int) + 1)) =
        some (present nav
          (Outcome.route (r.map Int.ofNat) (rdI (search (nav.matrix m) s).dist e))) ∧
      Connects (nav.matrix m) s e r ∧
      rdI (search (nav.matrix m) s).dist e = walkCost (nav.matrix m) r ∧
      ∀ p, Connects (nav.matrix m) s e p →
        rdI (search (nav.matrix m) s).dist e ≤ walkCost (nav.matrix m) p) ∧
    ∀ m2, Is15x15 ((createEdges nav).matrix m2) ∧
      SmallEntries 15 ((createEdges nav).matrix m2) := by
  obtain ⟨p0, hp0⟩ := hreach
  have hnn := smallEntries_nonNeg _ hsm
  have hno := noOverflow_of_smallEntries _ s hs hsm
  have hde := (search_optimal _ s e hs he hsm p0 hp0).1
  obtain ⟨r, h1, h2, h3, _, _⟩ := findRoute_of_reached fuel _ s e hs he hnn hno hde hfuel
  refine ⟨⟨r, ?_, h2, h3.symm, fun p hp => (search_optimal _ s e hs he hsm p hp).2⟩,
    fun m2 => ⟨reference_shape nav m2, reference_small nav m2⟩⟩
  rw [calculatePath_typed fuel nav m s e hs he, h1]
  rfl

/-- Witness of C1 (amended): the walking matrix of the constructed navigator,
from location 1 to location 15. -/
theorem C1_shortest_route_witness :
    (∃ r : List Nat,
      calculatePath 15 constructed Mode.walk.text (typed (((0 : Nat) : Int) + 1))
          (typed (((14 : Nat) : Int) + 1)) =
        some (present constructed
          (Outcome.route (r.map Int.ofNat)
            (rdI (search (constructed.matrix Mode.walk) 0).dist 14))) ∧
      Connects (constructed.matrix Mode.walk) 0 14 r ∧
      rdI (search (constructed.matrix Mode.walk) 0).dist 14
        = walkCost (constructed.matrix Mode.walk) r ∧
      ∀ p, Connects (constructed.matrix Mode.walk) 0 14 p →
        rdI (search (constructed.matrix Mode.walk) 0).dist 14
          ≤ walkCost (constructed.matrix Mode.walk) p) ∧
    ∀ m2, Is15x15 ((createEdges constructed).matrix m2) ∧
      SmallEntries 15 ((createEdges constructed).matrix m2) :=
  C1_shortest_route constructed Mode.walk 0 14 (by decide) (by decide) (by decide) (by decide)
    ⟨[0, 4, 9, 10, 14], by decide⟩ 15 (by decide)

/-- C2: for every 15x15 matrix with non-negative entries, in a search none of
whose additions overflows, and every start and end in `0..14`: `calculatePath`
returns as soon as the reconstruction loop may run 15 times, and whenever it
reports a route, with whatever fuel, the path has first element start and last
element end, every consecutive pair has a non-`INF` entry, and the reported
distance is `dist[end]` and equals the sum of those entries. -/
theorem C2_route_wellformed (nav : Navigator) (m : Mode) (s e : Nat) (hs : s < 15) (he : e < 15)
    (_hshape : Is15x15 (nav.matrix m)) (hnn : NonNegEntries (nav.matrix m))
    (hno : NoOverflow (nav.matrix m) s) :
    (∀ fuel, 15 ≤ fuel → ∃ o,
      calculatePath fuel nav m.text (typed ((s : Int) + 1)) (typed ((e : Int) + 1)) =
        some (present nav o)) ∧
    ∀ (fuel : Nat) (path : List Int) (d : Int),
      calculatePath fuel nav m.text (typed ((s : Int) + 1)) (typed ((e : Int) + 1)) =
        some (present nav (Outcome.route path d)) →
      ∃ r : List Nat, path = r.map Int.ofNat ∧ r.head? = some s ∧ r.getLast? = some e ∧
        IsWalk (nav.matrix m) r ∧ d = rdI (search (nav.matrix m) s).dist e ∧
        d = walkCost (nav.matrix m) r := by
  constructor
  · intro fuel hfuel
    rw [calculatePath_typed fuel nav m s e hs he]
    by_cases hde : rdI (search (nav.matrix m) s).dist e = INF
    · exact ⟨Outcome.unreachable, by rw [findRoute_of_unreached fuel _ s e hde]; rfl⟩
    · obtain ⟨r, h1, _⟩ := findRoute_of_reached fuel _ s e hs he hnn hno hde hfuel
      exact ⟨_, by rw [h1]; rfl⟩
  · intro fuel path d hreport
    rw [calculatePath_typed fuel nav m s e hs he] at hreport
    cases hf : findRoute fuel (nav.matrix m) s e with
    | none =>
      rw [hf] at hreport
      simp at hreport
    | some o =>
      rw [hf] at hreport
      simp only [Option.map_some', Option.some.injEq] at hreport
      have ho := present_inj nav _ _ hreport
      rw [ho] at hf
      obtain ⟨r, h1, h2, h3, h4, _, _⟩ :=
        findRoute_sound fuel _ s e hs he hnn hno path d hf
      exact ⟨r, h1, h2.2.1, h2.2.2, h2.1, h3, h4⟩

/-- Witness of C2: the walking matrix of the constructed navigator, from
location 1 to location 15. -/
theorem C2_route_wellformed_witness :
    (∀ fuel, 15 ≤ fuel → ∃ o,
      calculatePath fuel constructed Mode.walk.text (typed (((0 : Nat) : Int) + 1))
          (typed (((14 : Nat) : Int) + 1)) =
        some (present constructed o)) ∧
    ∀ (fuel : Nat) (path : List Int) (d : Int),
      calculatePath fuel constructed Mode.walk.text (typed (((0 : Nat) : Int) + 1))
          (typed (((14 : Nat) : Int) + 1)) =
        some (present constructed (Outcome.route path d)) →
      ∃ r : List Nat, path = r.map Int.ofNat ∧ r.head? = some 0 ∧ r.getLast? = some 14 ∧
        IsWalk (constructed.matrix Mode.walk) r ∧
        d = rdI (search (constructed.matrix Mode.walk) 0).dist 14 ∧
        d = walkCost (constructed.matrix Mode.walk) r :=
  C2_route_wellformed constructed Mode.walk 0 14 (by decide) (by decide) (by decide) (by decide)
    (by decide)

theorem isolated_no_path (s e : Nat) (hne : s ≠ e) :
    ¬ ∃ p, Connects (List.replicate 15 (List.replicate 15 INF)) s e p := by
  rintro ⟨p, hwalk, hhead, hlast⟩
  match p, hwalk, hhead, hlast with
  | [a], _, hhead, hlast =>
    have h1 : a = s := by simpa using hhead
    have h2 : a = e := by simpa using hlast
    exact hne (h1.symm.trans h2)
  | a :: b :: rest, hwalk, _, _ =>
    obtain ⟨ha, hab, hrest⟩ := hwalk
    have hb : b < 15 := isWalk_head_lt _ (b :: rest) b hrest rfl
    apply hab
    unfold entry
    have h1 : (List.replicate 15 (List.replicate 15 INF)).getD a [] = List.replicate 15 INF := by
      rw [List.getD_eq_getElem?_getD, List.getElem?_replicate]
      simp [ha]
    rw [h1, List.getD_eq_getElem?_getD, List.getElem?_replicate]
    simp [hb]

/-- C3: for every 15x15 matrix (of `INF` or non-negative entries, or of any
other entries) and every start and end in `0..14`, if no directed path of
non-`INF` entries leads from start to end, then `dist[end]` is `INF` when the
loop is left and `calculatePath`, with any fuel, adds the unreachable message
and nothing else: no route is reported and the drawn path stays as it was. -/
theorem C3_disconnected (nav : Navigator) (m : Mode) (s e : Nat) (hs : s < 15) (he : e < 15)
    (_hshape : Is15x15 (nav.matrix m))
    (hnopath : ¬ ∃ p, Connects (nav.matrix m) s e p) (fuel : Nat) :
    rdI (search (nav.matrix m) s).dist e = INF ∧
    calculatePath fuel nav m.text (typed ((s : Int) + 1)) (typed ((e : Int) + 1)) =
      some { nav with pathListWidget := nav.pathListWidget ++ [Item.unreachable] } := by
  have hd := search_unreached (nav.matrix m) s e he hnopath
  refine ⟨hd, ?_⟩
  rw [calculatePath_typed fuel nav m s e hs he, findRoute_of_unreached fuel _ s e hd]
  rfl

/-- Witness of C3: a walking matrix without edges, from location 1 to location 2. -/
theorem C3_disconnected_witness :
    rdI (search (isolatedNavigator.matrix Mode.walk) 0).dist 1 = INF ∧
    calculatePath 15 isolatedNavigator Mode.walk.text (typed (((0 : Nat) : Int) + 1))
        (typed (((1 : Nat) : Int) + 1)) =
      some { isolatedNavigator with
        pathListWidget := isolatedNavigator.pathListWidget ++ [Item.unreachable] } :=
  C3_disconnected isolatedNavigator Mode.walk 0 1 (by decide) (by decide) (by decide)
    (isolated_no_path 0 1 (by decide)) 15

/-- C4: on the matrices of `createEdges`, whatever items and drawn path the
navigator holds, for each of the three travel modes and every location `x` in
`0..14` (display id `x + 1`), `calculatePath` with start and end both `x`
reports the route `[x]` with distance 0, not the unreachable message, as soon
as the body of the reconstruction loop may run once. -/
theorem C4_reflexive (nav : Navigator) (m : Mode) (x : Nat) (hx : x < 15)
    (fuel : Nat) (hfuel : 1 ≤ fuel) :
    calculatePath fuel (createEdges nav) m.text (typed ((x : Int) + 1))
        (typed ((x : Int) + 1)) =
      some (present (createEdges nav) (Outcome.route [(x : Int)] 0)) := by
  have hsm := reference_small nav m
  have hnn := smallEntries_nonNeg _ hsm
  have hno := noOverflow_of_smallEntries _ x hx hsm
  obtain ⟨hd, hp⟩ := search_source ((createEdges nav).matrix m) x hx hnn hno
  obtain ⟨f, rfl⟩ : ∃ f, fuel = f + 1 := ⟨fuel - 1, by omega⟩
  have hne : ¬ ((x : Int) = -1) := by omega
  have hd2 : rdI (search ((createEdges nav).matrix m) x).dist x ≠ INF := by
    rw [hd]
    decide
  have h0 : ¬ ((0 : Int) = INF) := by decide
  rw [calculatePath_typed (f + 1) (createEdges nav) m x x hx hx]
  unfold findRoute
  simp only [if_neg hd2, walkBack, if_neg hne, Int.toNat_ofNat, hp, walkBack_stop, hd,
    Option.map_some', List.reverse_cons, List.reverse_nil, List.nil_append, if_neg h0]

/-- Witness of C4: the shuttle-bus mode at location 7. -/
theorem C4_reflexive_witness :
    calculatePath 1 (createEdges constructed) Mode.bus.text (typed (((6 : Nat) : Int) + 1))
        (typed (((6 : Nat) : Int) + 1)) =
      some (present (createEdges constructed) (Outcome.route [((6 : Nat) : Int)] 0)) :=
  C4_reflexive constructed Mode.bus 6 (by decide) 1 (by decide)

/-- C5: when a `toInt` call fails or its value lies outside `1..15`,
`calculatePath` adds the invalid-input message, whose text differs from the
unreachable message, and nothing else: the result does not depend on the fuel
or the matrices, no route is reported and the drawn path stays as it was. When
both calls succeed with values in `1..15`, the result is that of the search
from `value - 1`, and its last item is never the invalid-input message. -/
theorem C5_invalid_input (fuel : Nat) (nav : Navigator) (travelMode : String)
    (startIn endIn : ToIntResult) (hr1 : InIntRange startIn.value)
    (hr2 : InIntRange endIn.value) :
    ((startIn.ok = false ∨ endIn.ok = false ∨ startIn.value < 1 ∨ 15 < startIn.value ∨
        endIn.value < 1 ∨ 15 < endIn.value) →
      calculatePath fuel nav travelMode startIn endIn =
        some { nav with pathListWidget := nav.pathListWidget ++ [Item.invalidInput] }) ∧
    ((startIn.ok = true ∧ endIn.ok = true ∧ 1 ≤ startIn.value ∧ startIn.value ≤ 15 ∧
        1 ≤ endIn.value ∧ endIn.value ≤ 15) →
      calculatePath fuel nav travelMode startIn endIn =
        (findRoute fuel (chooseMatrix nav travelMode) (startIn.value - 1).toNat
          (endIn.value - 1).toNat).map (present nav) ∧
      ∀ nav2, calculatePath fuel nav travelMode startIn endIn = some nav2 →
        nav2.pathListWidget ≠ nav.pathListWidget ++ [Item.invalidInput]) ∧
    Item.invalidInput ≠ Item.unreachable ∧
    Item.text Item.invalidInput ≠ Item.text Item.unreachable := by
  unfold InIntRange at hr1 hr2
  have hs1 : startIn.value < 1 ∨ 15 < startIn.value →
      wrap32 (startIn.value - 1) < 0 ∨ wrap32 (startIn.value - 1) ≥ 15 := by
    unfold wrap32
    omega
  have he1 : endIn.value < 1 ∨ 15 < endIn.value →
      wrap32 (endIn.value - 1) < 0 ∨ wrap32 (endIn.value - 1) ≥ 15 := by
    unfold wrap32
    omega
  refine ⟨?_, ?_, by decide, by decide⟩
  · intro h
    unfold calculatePath
    have hc : (!startIn.ok || !endIn.ok || decide (wrap32 (startIn.value - 1) < 0) ||
        decide (wrap32 (startIn.value - 1) ≥ 15) || decide (wrap32 (endIn.value - 1) < 0) ||
        decide (wrap32 (endIn.value - 1) ≥ 15)) = true := by
      simp only [Bool.or_eq_true, Bool.not_eq_true', decide_eq_true_eq]
      tauto
    simp only [hc, if_true]
  · rintro ⟨h1, h2, h3, h4, h5, h6⟩
    have hs : wrap32 (startIn.value - 1) = startIn.value - 1 := by
      unfold wrap32
      omega
    have he : wrap32 (endIn.value - 1) = endIn.value - 1 := by
      unfold wrap32
      omega
    have heq : calculatePath fuel nav travelMode startIn endIn =
        (findRoute fuel (chooseMatrix nav travelMode) (startIn.value - 1).toNat
          (endIn.value - 1).toNat).map (present nav) := by
      unfold calculatePath
      have hc : (!startIn.ok || !endIn.ok || decide (wrap32 (startIn.value - 1) < 0) ||
          decide (wrap32 (startIn.value - 1) ≥ 15) || decide (wrap32 (endIn.value - 1) < 0) ||
          decide (wrap32 (endIn.value - 1) ≥ 15)) = false := by
        rw [hs, he, h1, h2]
        simp only [Bool.not_true, Bool.false_or, Bool.or_eq_false_iff, decide_eq_false_iff_not]
        omega
      simp only [hc, Bool.false_eq_true, if_false]
      rw [hs, he]
    refine ⟨heq, ?_⟩
    intro nav2 hres hlist
    rw [heq] at hres
    cases hf : findRoute fuel (chooseMatrix nav travelMode) (startIn.value - 1).toNat
        (endIn.value - 1).toNat with
    | none =>
      rw [hf] at hres
      simp at hres
    | some o =>
      rw [hf] at hres
      simp only [Option.map_some', Option.some.injEq] at hres
      rw [← hres] at hlist
      cases o <;> simp [present] at hlist

/-- Witness of C5: the start text `9999` with the end text `1`. -/
theorem C5_invalid_input_witness :
    ((true = false ∨ true = false ∨ (9999 : Int) < 1 ∨ (15 : Int) < 9999 ∨
        (1 : Int) < 1 ∨ (15 : Int) < 1) →
      calculatePath 15 constructed Mode.walk.text (typed 9999) (typed 1) =
        some { constructed with pathListWidget := constructed.pathListWidget ++ [Item.invalidInput] }) ∧
    ((true = true ∧ true = true ∧ (1 : Int) ≤ 9999 ∧ (9999 : Int) ≤ 15 ∧
        (1 : Int) ≤ 1 ∧ (1 : Int) ≤ 15) →
      calculatePath 15 constructed Mode.walk.text (typed 9999) (typed 1) =
        (findRoute 15 (chooseMatrix constructed Mode.walk.text) ((9999 : Int) - 1).toNat
          ((1 : Int) - 1).toNat).map (present constructed) ∧
      ∀ nav2, calculatePath 15 constructed Mode.walk.text (typed 9999) (typed 1) = some nav2 →
        nav2.pathListWidget ≠ constructed.pathListWidget ++ [Item.invalidInput]) ∧
    Item.invalidInput ≠ Item.unreachable ∧
    Item.text Item.invalidInput ≠ Item.text Item.unreachable :=
  C5_invalid_input 15 constructed Mode.walk.text (typed 9999) (typed 1) (by decide) (by decide)

theorem bus_detour : ∀ a, a < 15 → ∀ b, b < 15 →
    entry walkAdjMatrix a b ≠ INF → entry busAdjMatrix a b = INF →
    ∃ c, c < 15 ∧ Connects busAdjMatrix a b [a, c, b] := by
  decide

theorem bus_diagonal : ∀ a, a < 15 → entry busAdjMatrix a a ≠ INF := by
  decide

/-- C6, as stated, fails: locations 1 and 5 (indices 0 and 4) are joined by a
walking edge of 80 and by no bus edge, yet the bus query from 1 to 5 reports
the route 1 -> 4 -> 5 of distance 80 rather than the unreachable message. -/
theorem C6_counterexample :
    entry walkAdjMatrix 0 4 ≠ INF ∧ entry busAdjMatrix 0 4 = INF ∧
    calculatePath 15 constructed Mode.bus.text (typed 1) (typed 5) =
      some { constructed with
        pathListWidget := [Item.route [0, 3, 4] 80], currentPath := [0, 3, 4] } ∧
    calculatePath 15 constructed Mode.bus.text (typed 1) (typed 5) ≠
      some { constructed with pathListWidget := [Item.unreachable] } := by
  decide

/-- C6 (amended): on the matrices of `createEdges`, for every pair of locations `(a, b)`
whose entry in `walkAdjMatrix` is a weight and whose entry in `busAdjMatrix` is
`INF`, the walk-mode query from `a` to `b` reports a valid route, and the
bus-mode query reports a valid route too: a directed path of bus edges through
at least one other location, with the distance the bus matrix gives it. -/
theorem C6_mode_divergence (nav : Navigator) (a b : Nat) (ha : a < 15) (hb : b < 15)
    (hw : entry walkAdjMatrix a b ≠ INF) (hnb : entry busAdjMatrix a b = INF)
    (fuel : Nat) (hfuel : 15 ≤ fuel) :
    (∃ r : List Nat,
      calculatePath fuel (createEdges nav) Mode.bus.text (typed ((a : Int) + 1))
          (typed ((b : Int) + 1)) =
        some (present (createEdges nav)
          (Outcome.route (r.map Int.ofNat) (walkCost busAdjMatrix r))) ∧
      Connects busAdjMatrix a b r ∧ 3 ≤ r.length) ∧
    (∃ r : List Nat,
      calculatePath fuel (createEdges nav) Mode.walk.text (typed ((a : Int) + 1))
          (typed ((b : Int) + 1)) =
        some (present (createEdges nav)
          (Outcome.route (r.map Int.ofNat) (walkCost walkAdjMatrix r))) ∧
      Connects walkAdjMatrix a b r) := by
  have hmb : (createEdges nav).matrix Mode.bus = busAdjMatrix := rfl
  have hmw : (createEdges nav).matrix Mode.walk = walkAdjMatrix := rfl
  have hsb : SmallEntries 15 busAdjMatrix := reference_small nav Mode.bus
  have hsw : SmallEntries 15 walkAdjMatrix := reference_small nav Mode.walk
  constructor
  · obtain ⟨c, _, hc⟩ := bus_detour a ha b hb hw hnb
    have hde := (search_optimal _ a b ha hb hsb _ hc).1
    obtain ⟨r, h1, h2, h3, _, _⟩ := findRoute_of_reached fuel _ a b ha hb
      (smallEntries_nonNeg _ hsb) (noOverflow_of_smallEntries _ a ha hsb) hde hfuel
    refine ⟨r, ?_, h2, ?_⟩
    · rw [calculatePath_typed fuel (createEdges nav) Mode.bus a b ha hb, hmb, h1, h3]
      rfl
    · obtain ⟨hwalk2, hhead, hlast⟩ := h2
      match r, hwalk2, hhead, hlast with
      | [x], _, hhead, hlast =>
        have e1 : x = a := by simpa using hhead
        have e2 : x = b := by simpa using hlast
        rw [← e1, ← e2] at hnb
        exact absurd hnb (bus_diagonal x (by omega))
      | [x, y], hwalk2, hhead, hlast =>
        have e1 : x = a := by simpa using hhead
        have e2 : y = b := by simpa using hlast
        rw [e1, e2] at hwalk2
        exact absurd hnb hwalk2.2.1
      | x :: y :: z :: rest, _, _, _ =>
        simp only [List.length_cons]
        omega
  · have hc : Connects walkAdjMatrix a b [a, b] := ⟨⟨ha, hw, hb⟩, rfl, rfl⟩
    have hde := (search_optimal _ a b ha hb hsw _ hc).1
    obtain ⟨r, h1, h2, h3, _, _⟩ := findRoute_of_reached fuel _ a b ha hb
      (smallEntries_nonNeg _ hsw) (noOverflow_of_smallEntries _ a ha hsw) hde hfuel
    refine ⟨r, ?_, h2⟩
    rw [calculatePath_typed fuel (createEdges nav) Mode.walk a b ha hb, hmw, h1, h3]
    rfl

/-- Witness of C6 (amended): the pair of locations 1 and 5. -/
theorem C6_mode_divergence_witness :
    (∃ r : List Nat,
      calculatePath 15 (createEdges constructed) Mode.bus.text (typed (((0 : Nat) : Int) + 1))
          (typed (((4 : Nat) : Int) + 1)) =
        some (present (createEdges constructed)
          (Outcome.route (r.map Int.ofNat) (walkCost busAdjMatrix r))) ∧
      Connects busAdjMatrix 0 4 r ∧ 3 ≤ r.length) ∧
    (∃ r : List Nat,
      calculatePath 15 (createEdges constructed) Mode.walk.text (typed (((0 : Nat) : Int) + 1))
          (typed (((4 : Nat) : Int) + 1)) =
        some (present (createEdges constructed)
          (Outcome.route (r.map Int.ofNat) (walkCost walkAdjMatrix r))) ∧
      Connects walkAdjMatrix 0 4 r) :=
  C6_mode_divergence constructed 0 4 (by decide) (by decide) (by decide)
    (by decide) 15 (by decide)

/-- C7 fails on the code: the walking matrix is symmetric, but in the cycling
matrix and in the bus matrix the entries `[9][13]` and `[14][10]` are `INF`
while `[13][9]` and `[10][14]` are 80; every other pair is symmetric. -/
theorem C7_asymmetric_entries :
    (∀ i, i < 15 → ∀ j, j < 15 → entry walkAdjMatrix i j = entry walkAdjMatrix j i) ∧
    entry bikeAdjMatrix 9 13 = INF ∧ entry bikeAdjMatrix 13 9 = 80 ∧
    entry bikeAdjMatrix 10 14 = 80 ∧ entry bikeAdjMatrix 14 10 = INF ∧
    entry busAdjMatrix 9 13 = INF ∧ entry busAdjMatrix 13 9 = 80 ∧
    entry busAdjMatrix 10 14 = 80 ∧ entry busAdjMatrix 14 10 = INF ∧
    (∀ i, i < 15 → ∀ j, j < 15 →
      entry bikeAdjMatrix i j = entry bikeAdjMatrix j i ∨
        (i = 9 ∧ j = 13) ∨ (i = 13 ∧ j = 9) ∨ (i = 10 ∧ j = 14) ∨ (i = 14 ∧ j = 10)) ∧
    (∀ i, i < 15 → ∀ j, j < 15 →
      entry busAdjMatrix i j = entry busAdjMatrix j i ∨
        (i = 9 ∧ j = 13) ∨ (i = 13 ∧ j = 9) ∨ (i = 10 ∧ j = 14) ∨ (i = 14 ∧ j = 10)) := by
  refine ⟨by decide, by decide, by decide, by decide, by decide, by decide, by decide,
    by decide, by decide, by decide, by decide⟩

/-- C8: in every state of `dist` and `visited` in which at least one location
in `0..14` is unvisited, the selection loop ends with an unvisited index `u` in
`0..14` whose `dist[u]` is minimal among the unvisited locations, and `u` is the
smallest index among the unvisited locations with that distance. -/
theorem C8_selection (st : State) (h : ∃ j, j < 15 ∧ rdB st.visited j = false) :
    ∃ u : Nat, u < 15 ∧ selectFrom st.dist st.visited 15 = (u : Int) ∧ selected st = u ∧
      rdB st.visited u = false ∧
      (∀ j, j < 15 → rdB st.visited j = false → rdI st.dist u ≤ rdI st.dist j) ∧
      (∀ j, j < 15 → rdB st.visited j = false → rdI st.dist j = rdI st.dist u → u ≤ j) := by
  obtain ⟨u, hu, hsel, hvis, hmin, htie⟩ := selectFrom_spec st.dist st.visited 15 h
  refine ⟨u, hu, hsel, ?_, hvis, hmin, htie⟩
  unfold selected
  rw [hsel]
  rfl

/-- Witness of C8: three locations at distance 5, the first of them visited;
the loop selects index 3, the smaller of the other two. -/
theorem C8_selection_witness :
    ∃ u : Nat, u < 15 ∧
      selectFrom [5, 9, 7, 5, 8, 5, 9, 9, 9, 9, 9, 9, 9, 9, 9]
        [true, false, false, false, false, false, false, false, false, false, false, false,
          false, false, false] 15 = (u : Int) ∧
      selected
        { dist := [5, 9, 7, 5, 8, 5, 9, 9, 9, 9, 9, 9, 9, 9, 9]
          visited := [true, false, false, false, false, false, false, false, false, false,
            false, false, false, false, false]
          prev := List.replicate 15 (-1) } = u ∧
      rdB [true, false, false, false, false, false, false, false, false, false, false, false,
          false, false, false] u = false ∧
      (∀ j, j < 15 →
        rdB [true, false, false, false, false, false, false, false, false, false, false,
          false, false, false, false] j = false →
        rdI [5, 9, 7, 5, 8, 5, 9, 9, 9, 9, 9, 9, 9, 9, 9] u
          ≤ rdI [5, 9, 7, 5, 8, 5, 9, 9, 9, 9, 9, 9, 9, 9, 9] j) ∧
      (∀ j, j < 15 →
        rdB [true, false, false, false, false, false, false, false, false, false, false,
          false, false, false, false] j = false →
        rdI [5, 9, 7, 5, 8, 5, 9, 9, 9, 9, 9, 9, 9, 9, 9] j
          = rdI [5, 9, 7, 5, 8, 5, 9, 9, 9, 9, 9, 9, 9, 9, 9] u → u ≤ j) :=
  C8_selection
    { dist := [5, 9, 7, 5, 8, 5, 9, 9, 9, 9, 9, 9, 9, 9, 9]
      visited := [true, false, false, false, false, false, false, false, false, false,
        false, false, false, false, false]
      prev := List.replicate 15 (-1) }
    ⟨1, by decide, by decide⟩

/-- C9: for every 15x15 matrix with non-negative entries and every start in
`0..14`, in a search none of whose additions overflows, the relaxation loop of
every iteration, at every point of its run, has left `dist[v]` and `prev[v]` of
every visited location `v` as they were before the loop; and the arrays `dist`,
`prev` and `visited` the search ends with are those of the variant that relaxes
unvisited neighbours only. -/
theorem C9_relaxation_refines (adj : Matrix) (s : Nat) (hs : s < 15)
    (_hshape : Is15x15 adj) (hnn : NonNegEntries adj) (hno : NoOverflow adj s) :
    (∀ i, i < 15 → ∀ m, m ≤ 15 → ∀ v, v < 15 →
      rdI (mainLoop adj i (initState s)).dist (selected (mainLoop adj i (initState s))) ≠ INF →
      rdB (markVisited (mainLoop adj i (initState s))
        (selected (mainLoop adj i (initState s)))).visited v = true →
      rdI (relaxFrom adj (selected (mainLoop adj i (initState s))) m
          (markVisited (mainLoop adj i (initState s))
            (selected (mainLoop adj i (initState s))))).dist v
        = rdI (mainLoop adj i (initState s)).dist v ∧
      rdI (relaxFrom adj (selected (mainLoop adj i (initState s))) m
          (markVisited (mainLoop adj i (initState s))
            (selected (mainLoop adj i (initState s))))).prev v
        = rdI (mainLoop adj i (initState s)).prev v) ∧
    (search adj s).dist = (searchUnvisited adj s).dist ∧
    (search adj s).prev = (searchUnvisited adj s).prev ∧
    (search adj s).visited = (searchUnvisited adj s).visited := by
  constructor
  · intro i hi m hm v hv hb hvv
    obtain ⟨t, k, hInv, hk⟩ := mainLoop_inv adj s hs hnn i (by omega)
      (fun j hj x hx => hno j (by omega) x hx)
    have hki : k = i := hk.resolve_right hb
    exact relax_frozen adj s _ t k hnn hInv (by omega)
      (fun x hx hne => hno i hi x hx hb hne) m hm v hv hvv
  · have h : searchUnvisited adj s = search adj s :=
      mainLoopUnvisited_eq adj s hs hnn hno 15 (le_refl _)
    rw [h]
    exact ⟨rfl, rfl, rfl⟩

/-- Witness of C9: the walking matrix, searched from location 1. -/
theorem C9_relaxation_refines_witness :
    (∀ i, i < 15 → ∀ m, m ≤ 15 → ∀ v, v < 15 →
      rdI (mainLoop walkAdjMatrix i (initState 0)).dist
        (selected (mainLoop walkAdjMatrix i (initState 0))) ≠ INF →
      rdB (markVisited (mainLoop walkAdjMatrix i (initState 0))
        (selected (mainLoop walkAdjMatrix i (initState 0)))).visited v = true →
      rdI (relaxFrom walkAdjMatrix (selected (mainLoop walkAdjMatrix i (initState 0))) m
          (markVisited (mainLoop walkAdjMatrix i (initState 0))
            (selected (mainLoop walkAdjMatrix i (initState 0))))).dist v
        = rdI (mainLoop walkAdjMatrix i (initState 0)).dist v ∧
      rdI (relaxFrom walkAdjMatrix (selected (mainLoop walkAdjMatrix i (initState 0))) m
          (markVisited (mainLoop walkAdjMatrix i (initState 0))
            (selected (mainLoop walkAdjMatrix i (initState 0))))).prev v
        = rdI (mainLoop walkAdjMatrix i (initState 0)).prev v) ∧
    (search walkAdjMatrix 0).dist = (searchUnvisited walkAdjMatrix 0).dist ∧
    (search walkAdjMatrix 0).prev = (searchUnvisited walkAdjMatrix 0).prev ∧
    (search walkAdjMatrix 0).visited = (searchUnvisited walkAdjMatrix 0).visited :=
  C9_relaxation_refines walkAdjMatrix 0 (by decide) (by decide) (by decide) (by decide)

/-- C10: for every 15x15 matrix with non-negative entries and every start and
end in `0..14`, in a search none of whose additions overflows and that leaves
`dist[end] != INF`, the loop `for (at = end; at != -1; at = prev[at])` ends
within 15 runs of its body: it pushes at most 15 locations, all in `0..14` and
no two equal, the first is `end`, the last is `start`, and `prev[start]` is
`-1`. -/
theorem C10_reconstruction_terminates (adj : Matrix) (s e : Nat) (hs : s < 15) (he : e < 15)
    (_hshape : Is15x15 adj) (hnn : NonNegEntries adj) (hno : NoOverflow adj s)
    (hde : rdI (search adj s).dist e ≠ INF) :
    ∃ pushed : List Nat,
      walkBack (search adj s).prev 15 (e : Int) = some (pushed.map Int.ofNat) ∧
      pushed.length ≤ 15 ∧ pushed.Nodup ∧ (∀ x, x ∈ pushed → x < 15) ∧
      pushed.head? = some e ∧ pushed.getLast? = some s ∧
      rdI (search adj s).prev s = -1 := by
  obtain ⟨r, h1, h2, h3, _, _, h6, h7, h8⟩ :=
    search_walkBack adj s e hs he hnn hno hde 15 (le_refl _)
  refine ⟨r.reverse, ?_, ?_, ?_, ?_, ?_, ?_, (search_source adj s hs hnn hno).2⟩
  · exact h1
  · rw [List.length_reverse]
    exact h7
  · exact List.nodup_reverse.mpr h6
  · intro x hx
    exact h8 x (List.mem_reverse.mp hx)
  · rw [List.head?_reverse]
    exact h3
  · rw [List.getLast?_reverse]
    exact h2

/-- Witness of C10: the walking matrix, from location 1 to location 15. -/
theorem C10_reconstruction_terminates_witness :
    ∃ pushed : List Nat,
      walkBack (search walkAdjMatrix 0).prev 15 ((14 : Nat) : Int)
        = some (pushed.map Int.ofNat) ∧
      pushed.length ≤ 15 ∧ pushed.Nodup ∧ (∀ x, x ∈ pushed → x < 15) ∧
      pushed.head? = some 14 ∧ pushed.getLast? = some 0 ∧
      rdI (search walkAdjMatrix 0).prev 0 = -1 :=
  C10_reconstruction_terminates walkAdjMatrix 0 14 (by decide) (by decide) (by decide)
    (by decide) (by decide) (by decide)

end CampusNavigator
